import Mathlib

/-
  Verification of the MonolithMaestro real-time pitch-detection engine.

  Shallow embedding of the C++ sources:
    - Source/PitchDetector.cpp / .h   (monophonic strongest-bin variant with
      range-table classifier and note-stability tracking)
    - the multi-peak harmonic-filtered variant of PitchDetector.cpp
    - the key estimator of PluginProcessor.cpp (MonolithMaestroProcessor)

  Modelling conventions:
    - float values are modelled by exact rationals (ℚ); float literals such as
      0.02f, 0.4f, 0.1f, 0.0001f are modelled by the rational they denote
      (1/50, 2/5, 1/10, 1/10000);
    - the square root in calculateRMS and the irrational note-frequency table
      are modelled over ℝ (Real.sqrt, Real.rpow);
    - the windowing/FFT/magnitude kernel (lines computing fftMagnitudes_) is
      an uninterpreted parameter `spectrum` of the state machine: no claim
      constrains its numeric values, and every theorem below is proved for
      all values of that parameter;
    - juce::AbstractFifo (an external JUCE library class) is modelled from
      its published implementation;
    - std::sort (an unstable comparison sort) is modelled by insertion sort
      with the same comparison; all stated properties depend only on the
      resulting order and multiset of elements.
-/

namespace MonolithMaestro

/-- FFT order of the detector (fftOrder_ = 11). -/
def fftOrder : ℕ := 11

/-- FFT size (fftSize_ = 1 << fftOrder_ = 2048). -/
def fftSize : ℕ := 2 ^ fftOrder

/-- Maximum number of simultaneous notes in the multi-peak variant
(maxPolyphony_ = 4). -/
def maxPolyphony : ℕ := 4

/-- Modelled from the spec: the constant `stabilityFramesRequired_` is declared
in the monophonic variant's PitchDetector.h, which is not among the available
sources; per the spec's Stability Tracker section the required consecutive
frame count is 2. -/
def stabilityFramesRequired : ℕ := 2

/-- A detected musical note (struct DetectedNote). -/
structure DetectedNote where
  noteName : String
  frequency : ℚ
  magnitude : ℚ
  midiNoteNumber : ℤ
deriving DecidableEq, Repr

instance : Inhabited DetectedNote := ⟨⟨"", 0, 0, 0⟩⟩

/-- A note-stability history entry (struct NoteHistory of the monophonic
variant). -/
structure NoteHistory where
  midiNote : ℤ
  consecutiveFrames : ℕ
  totalMagnitude : ℚ
deriving DecidableEq, Repr

/-- Chromatic note-name table (noteNames_). -/
def noteNames : List String :=
  "C" :: "C#" :: "D" :: "D#" :: "E" :: "F" ::
    "F#" :: "G" :: "G#" :: "A" :: "A#" :: "B" :: []

/-! ## Key estimator (MonolithMaestroProcessor::analyzeKey and helpers) -/

/-- Embedding of MonolithMaestroProcessor::noteToPitchClass: strip the octave
digits, then map the note name to a pitch class 0–11, or -1 if unknown. -/
def noteToPitchClass (noteName : String) : ℤ :=
  if noteName.length = 0 then -1
  else
    let noteOnly := String.mk (noteName.toList.takeWhile
      (fun c => !(decide ('0' ≤ c) && decide (c ≤ '9'))))
    if noteOnly = "C" then 0
    else if noteOnly = "C#" ∨ noteOnly = "Db" then 1
    else if noteOnly = "D" then 2
    else if noteOnly = "D#" ∨ noteOnly = "Eb" then 3
    else if noteOnly = "E" then 4
    else if noteOnly = "F" then 5
    else if noteOnly = "F#" ∨ noteOnly = "Gb" then 6
    else if noteOnly = "G" then 7
    else if noteOnly = "G#" ∨ noteOnly = "Ab" then 8
    else if noteOnly = "A" then 9
    else if noteOnly = "A#" ∨ noteOnly = "Bb" then 10
    else if noteOnly = "B" then 11
    else -1

/-- Embedding of MonolithMaestroProcessor::pitchClassToNoteName. -/
def pitchClassToNoteName (pitchClass : ℤ) : String :=
  if 0 ≤ pitchClass ∧ pitchClass < 12 then noteNames.getD pitchClass.toNat "?"
  else "?"

/-- Major scale interval pattern (analyzeKey's majorScale). -/
def majorScale : List ℕ := [0, 2, 4, 5, 7, 9, 11]

/-- Natural-minor scale interval pattern (analyzeKey's minorScale). -/
def minorScale : List ℕ := [0, 2, 3, 5, 7, 8, 10]

/-- Embedding of analyzeKey's histogram loop: count pitch-class occurrences of
the recorded notes into a 12-bucket table. -/
def pitchClassCounts (notes : List String) : List ℕ :=
  notes.foldl
    (fun counts note =>
      let pc := noteToPitchClass note
      if 0 ≤ pc ∧ pc < 12 then counts.set pc.toNat (counts.getD pc.toNat 0 + 1)
      else counts)
    (List.replicate 12 0)

/-- Bucket read of the pitch-class histogram. -/
def countAt (counts : List ℕ) (pc : ℕ) : ℤ :=
  (counts.getD pc 0 : ℤ)

/-- Embedding of analyzeKey's per-key scoring: +2×count for each scale degree
of the given root/scale pattern, then −1×count for every pitch class not in
the scale. -/
def scaleScore (counts : List ℕ) (root : ℕ) (scale : List ℕ) : ℤ :=
  let bonus : ℤ :=
    scale.foldl (fun acc interval => acc + countAt counts ((root + interval) % 12) * 2) 0
  (List.range 12).foldl
    (fun acc pc =>
      if scale.any (fun interval => pc = (root + interval) % 12) then acc
      else acc - countAt counts pc)
    bonus

/-- Best-candidate update of analyzeKey: replace the running best only on a
strictly greater score. -/
def updateBest (best : ℤ × String) (score : ℤ) (key : String) : ℤ × String :=
  if best.1 < score then (score, key) else best

/-- Embedding of MonolithMaestroProcessor::analyzeKey: score all 12 roots,
major then minor per root, keeping the first strictly-improving candidate. -/
def analyzeKey (notes : List String) : String :=
  if notes.length = 0 then "Unknown"
  else
    let counts := pitchClassCounts notes
    let best := (List.range 12).foldl
      (fun best root =>
        let b1 := updateBest best (scaleScore counts root majorScale)
          (pitchClassToNoteName (root : ℤ) ++ " Major")
        updateBest b1 (scaleScore counts root minorScale)
          (pitchClassToNoteName (root : ℤ) ++ " Minor"))
      (-1000, "Unknown")
    best.2

/-- Candidate keys in analyzeKey's evaluation order: roots ascending, major
before minor for each root (true = major). -/
def keyCandidates : List (ℕ × Bool) :=
  (List.range 12).flatMap (fun root => [(root, true), (root, false)])

/-- Score of a candidate key against a histogram. -/
def keyScore (counts : List ℕ) (c : ℕ × Bool) : ℤ :=
  scaleScore counts c.1 (if c.2 then majorScale else minorScale)

/-- Label of a candidate key, exactly as analyzeKey builds it. -/
def keyLabel (c : ℕ × Bool) : String :=
  pitchClassToNoteName (c.1 : ℤ) ++ (if c.2 then " Major" else " Minor")

/-- Specification-side scoring formula, following the spec's words: twice the
sum of histogram counts of in-scale pitch classes minus the sum of counts of
out-of-scale pitch classes. -/
def specKeyScore (counts : List ℕ) (c : ℕ × Bool) : ℤ :=
  let scale := if c.2 then majorScale else minorScale
  2 * ((List.range 12).foldl
        (fun acc pc =>
          if scale.any (fun interval => pc = (c.1 + interval) % 12) then
            acc + countAt counts pc
          else acc) 0)
  - ((List.range 12).foldl
        (fun acc pc =>
          if scale.any (fun interval => pc = (c.1 + interval) % 12) then acc
          else acc + countAt counts pc) 0)

/-- Specification-side key choice, following the spec's words: the first
candidate (in evaluation order) whose score is greater than or equal to every
candidate's score. -/
def specBestKey (notes : List String) : String :=
  let counts := pitchClassCounts notes
  match keyCandidates.find?
      (fun c => keyCandidates.all (fun c' => keyScore counts c' ≤ keyScore counts c)) with
  | some c => keyLabel c
  | none => "Unknown"

/-! ## Stability tracker (PitchDetector::updateNoteStability, monophonic) -/

/-- Embedding of the candidate-update loop: increment the first history entry
with a matching MIDI note and accumulate its magnitude, or append a fresh
entry with a frame count of 1. -/
def addCandidate : List NoteHistory → DetectedNote → List NoteHistory
  | [], c => [⟨c.midiNoteNumber, 1, c.magnitude⟩]
  | e :: t, c =>
    if e.midiNote = c.midiNoteNumber then
      { e with consecutiveFrames := e.consecutiveFrames + 1,
               totalMagnitude := e.totalMagnitude + c.magnitude } :: t
    else e :: addCandidate t c

/-- Embedding of the decay loop: erase every history entry whose note is not
among the current candidates. -/
def pruneHistory (hist : List NoteHistory) (cands : List DetectedNote) : List NoteHistory :=
  hist.filter (fun e => cands.any (fun c => c.midiNoteNumber = e.midiNote))

/-- Embedding of the publication loop: for every entry stable for at least
`stabilityFramesRequired` frames, publish the matching current candidate. -/
def buildDetected (hist : List NoteHistory) (cands : List DetectedNote) : List DetectedNote :=
  hist.filterMap
    (fun e =>
      if stabilityFramesRequired ≤ e.consecutiveFrames then
        cands.find? (fun c => c.midiNoteNumber = e.midiNote)
      else none)

/-- Comparison used by DetectedNote::operator< : sort strongest first. -/
def byMagnitudeDesc (a b : DetectedNote) : Prop :=
  b.magnitude ≤ a.magnitude

instance : DecidableRel byMagnitudeDesc :=
  fun a b => inferInstanceAs (Decidable (b.magnitude ≤ a.magnitude))

instance : IsTotal DetectedNote byMagnitudeDesc :=
  ⟨fun a b => le_total b.magnitude a.magnitude⟩

instance : IsTrans DetectedNote byMagnitudeDesc :=
  ⟨fun _ _ _ h1 h2 => le_trans h2 h1⟩

/-- Model of std::sort with DetectedNote::operator< (descending magnitude). -/
def sortNotesDesc (l : List DetectedNote) : List DetectedNote :=
  List.insertionSort byMagnitudeDesc l

/-- Embedding of PitchDetector::updateNoteStability (monophonic variant):
returns the new history and the published detected-note list. -/
def updateNoteStability (hist : List NoteHistory) (cands : List DetectedNote) :
    List NoteHistory × List DetectedNote :=
  let h1 := cands.foldl addCandidate hist
  let h2 := pruneHistory h1 cands
  (h2, sortNotesDesc (buildDetected h2 cands))

/-! ## Multi-peak variant: peak finding, harmonic filter, pruning -/

/-- Comparison used when ranking raw peaks by magnitude (descending). -/
def byFstDesc (a b : ℚ × ℕ) : Prop :=
  b.1 ≤ a.1

instance : DecidableRel byFstDesc :=
  fun a b => inferInstanceAs (Decidable (b.1 ≤ a.1))

instance : IsTotal (ℚ × ℕ) byFstDesc :=
  ⟨fun a b => le_total b.1 a.1⟩

instance : IsTrans (ℚ × ℕ) byFstDesc :=
  ⟨fun _ _ _ h1 h2 => le_trans h2 h1⟩

/-- Ascending order on bin indices. -/
def binAsc (a b : ℕ) : Prop := a ≤ b

instance : DecidableRel binAsc :=
  fun a b => inferInstanceAs (Decidable (a ≤ b))

instance : IsTotal ℕ binAsc := ⟨fun a b => le_total a b⟩

instance : IsTrans ℕ binAsc := ⟨fun _ _ _ h1 h2 => le_trans h1 h2⟩

/-- Embedding of PitchDetector::findPeaks (multi-peak variant): strict local
maxima above the magnitude threshold in bins [4, size−1), ranked by magnitude
descending, truncated to maxPolyphony. -/
def findPeaks (mags : List ℚ) (threshold : ℚ) : List ℕ :=
  let peaks := (List.range mags.length).filterMap
    (fun i =>
      if 4 ≤ i ∧ i + 1 < mags.length ∧ mags.getD i 0 > threshold ∧
          mags.getD i 0 > mags.getD (i - 1) 0 ∧ mags.getD i 0 > mags.getD (i + 1) 0 then
        some (mags.getD i 0, i)
      else none)
  ((List.insertionSort byFstDesc peaks).take maxPolyphony).map (fun p => p.2)

/-- Frequency of an FFT bin: bin * sampleRate / fftSize. -/
def binFrequency (sampleRate : ℚ) (bin : ℕ) : ℚ :=
  (bin : ℚ) * sampleRate / (fftSize : ℚ)

/-- Harmonic test of the multi-peak filter: the bin's frequency lies within
an absolute tolerance of 10% of the lower peak's frequency around its 2nd,
3rd or 4th harmonic. -/
def isNearHarmonic (sampleRate : ℚ) (lowerBin bin : ℕ) : Bool :=
  ([2, 3, 4] : List ℕ).any
    (fun harmonic =>
      |binFrequency sampleRate bin - (harmonic : ℚ) * binFrequency sampleRate lowerBin|
        < binFrequency sampleRate lowerBin * (1 / 10))

/-- Single step of the harmonic filter: keep the bin unless it is a harmonic
of some already-accepted peak. -/
def harmonicFilterStep (sampleRate : ℚ) (accepted : List ℕ) (bin : ℕ) : List ℕ :=
  if accepted.any (fun lower => isNearHarmonic sampleRate lower bin) then accepted
  else accepted ++ [bin]

/-- Embedding of the harmonic-filtering loop of the multi-peak
performFFTAnalysis: sort the candidate bins ascending, then accept each bin
unless it is within tolerance of the 2nd–4th harmonic of an accepted peak. -/
def harmonicFilter (sampleRate : ℚ) (peaks : List ℕ) : List ℕ :=
  (List.insertionSort binAsc peaks).foldl (harmonicFilterStep sampleRate) []

/-- Embedding of the relative-magnitude pruning step of the multi-peak
performFFTAnalysis: on a non-empty (already sorted) list, drop every note
whose magnitude is below 40% of the first (strongest) note's magnitude. -/
def pruneWeakNotes (l : List DetectedNote) : List DetectedNote :=
  match l with
  | [] => []
  | strongest :: _ =>
    l.filter (fun n => !(n.magnitude < strongest.magnitude * (2 / 5)))

/-! ## Recording state of MonolithMaestroProcessor -/

/-- Recording-related state of MonolithMaestroProcessor. -/
structure ProcessorState where
  isRecording : Bool
  recordedNotes : List String
  lastRecordedNote : String
  detectedKey : String
deriving DecidableEq, Repr

/-- Embedding of MonolithMaestroProcessor::startRecording. -/
def startRecording (p : ProcessorState) : ProcessorState :=
  { p with recordedNotes := [], lastRecordedNote := "", detectedKey := "",
           isRecording := true }

/-- Embedding of MonolithMaestroProcessor::stopRecording: stop recording, run
the key estimator when notes were recorded, otherwise store the explicit
no-notes outcome; return the recorded sequence. -/
def stopRecording (p : ProcessorState) : List String × ProcessorState :=
  let p1 := { p with isRecording := false }
  if p1.recordedNotes.length ≠ 0 then
    (p1.recordedNotes, { p1 with detectedKey := analyzeKey p1.recordedNotes })
  else
    (p1.recordedNotes, { p1 with detectedKey := "No notes recorded" })

/-! ## Model of juce::AbstractFifo (external JUCE library) -/

/-- Bookkeeping state of a juce::AbstractFifo: total ring size and the valid
start/end positions. -/
structure FifoState where
  bufferSize : ℕ
  validStart : ℕ
  validEnd : ℕ
deriving DecidableEq, Repr

/-- Result of prepareToWrite / prepareToRead: two index ranges. -/
structure FifoRegion where
  start1 : ℕ
  size1 : ℕ
  start2 : ℕ
  size2 : ℕ
deriving DecidableEq, Repr

namespace AbstractFifo

/-- Model of juce::AbstractFifo::getNumReady. -/
def getNumReady (f : FifoState) : ℕ :=
  if f.validStart ≤ f.validEnd then f.validEnd - f.validStart
  else f.bufferSize - (f.validStart - f.validEnd)

/-- Model of juce::AbstractFifo::prepareToWrite: clamp the request to one
less than the free space, then return up to two ranges starting at the valid
end, wrapping at bufferSize. -/
def prepareToWrite (f : FifoState) (numToWrite : ℕ) : FifoRegion :=
  let freeSpace :=
    if f.validStart ≤ f.validEnd then f.bufferSize - (f.validEnd - f.validStart)
    else f.validStart - f.validEnd
  let n := min numToWrite (freeSpace - 1)
  if n = 0 then ⟨0, 0, 0, 0⟩
  else
    let blockSize1 := min (f.bufferSize - f.validEnd) n
    ⟨f.validEnd, blockSize1, 0, n - blockSize1⟩

/-- Model of juce::AbstractFifo::finishedWrite. -/
def finishedWrite (f : FifoState) (numWritten : ℕ) : FifoState :=
  let newEnd := f.validEnd + numWritten
  { f with validEnd := if f.bufferSize ≤ newEnd then newEnd - f.bufferSize else newEnd }

/-- Model of juce::AbstractFifo::prepareToRead. -/
def prepareToRead (f : FifoState) (numWanted : ℕ) : FifoRegion :=
  let numReady :=
    if f.validStart ≤ f.validEnd then f.validEnd - f.validStart
    else f.bufferSize - (f.validStart - f.validEnd)
  let n := min numWanted numReady
  if n = 0 then ⟨0, 0, 0, 0⟩
  else
    let blockSize1 := min (f.bufferSize - f.validStart) n
    ⟨f.validStart, blockSize1, 0, n - blockSize1⟩

/-- Model of juce::AbstractFifo::finishedRead. -/
def finishedRead (f : FifoState) (numRead : ℕ) : FifoState :=
  let newStart := f.validStart + numRead
  { f with validStart := if f.bufferSize ≤ newStart then newStart - f.bufferSize else newStart }

end AbstractFifo

/-! ## Monophonic PitchDetector state machine -/

/-- Mutable state of the monophonic PitchDetector. -/
structure PitchState where
  fifo : FifoState
  fifoBuffer : List ℚ
  detectedNotes : List DetectedNote
  candidateNotes : List DetectedNote
  noteHistory : List NoteHistory
  isActive : Bool
  magnitudeThreshold : ℚ
  noiseGateThreshold : ℚ
  sampleRate : ℚ

/-- Embedding of the sum-of-squares loop of PitchDetector::calculateRMS. -/
def sumOfSquares (buffer : List ℚ) : ℚ :=
  buffer.foldl (fun acc sample => acc + sample * sample) 0

/-- Embedding of PitchDetector::calculateRMS: square root of the mean of the
squared samples (0 for an empty buffer). -/
noncomputable def calculateRMS (buffer : List ℚ) : ℝ :=
  if buffer.length = 0 then 0
  else Real.sqrt (((sumOfSquares buffer / (buffer.length : ℚ) : ℚ) : ℝ))

/-- Write a list of samples into the FIFO backing buffer starting at the
given index (a List.set past the end is a no-op; the C++ counterpart writes
out of bounds there, which claim C7 is about). -/
def writeSegment (buf : List ℚ) (start : ℕ) (xs : List ℚ) : List ℚ :=
  (List.range xs.length).foldl (fun b i => b.set (start + i) (xs.getD i 0)) buf

/-- Embedding of the strongest-bin scan of the monophonic performFFTAnalysis:
start from bin 2 and keep the first strict maximum over bins [3, fftSize/2). -/
def strongestPeak (mags : ℕ → ℚ) : ℕ × ℚ :=
  (List.range' 3 (fftSize / 2 - 3)).foldl
    (fun p i => if mags i > p.2 then (i, mags i) else p) (2, mags 2)

/-- Embedding of the parabolic-interpolation refinement of the peak bin. -/
def parabolicRefine (mags : ℕ → ℚ) (bin : ℕ) : ℚ :=
  if 0 < bin ∧ bin + 1 < fftSize / 2 then
    let left := mags (bin - 1)
    let center := mags bin
    let right := mags (bin + 1)
    let denominator := left - 2 * center + right
    if 1 / 10000 < |denominator| then
      (bin : ℚ) + (1 / 2) * (left - right) / denominator
    else (bin : ℚ)
  else (bin : ℚ)

/-- Embedding of the candidate-construction part of the monophonic
performFFTAnalysis: at most one candidate, produced when the strongest
magnitude is above the threshold and the range-table lookup succeeds. The
lookup is a parameter (its real-valued embedding is findNoteForFrequency
below). -/
def monoAnalyze (findNote : ℚ → Option (String × ℤ)) (mags : ℕ → ℚ)
    (sampleRate threshold : ℚ) : List DetectedNote :=
  let p := strongestPeak mags
  if p.2 > threshold then
    let refined := parabolicRefine mags p.1
    let frequency := refined * sampleRate / (fftSize : ℚ)
    match findNote frequency with
    | some nm => [⟨nm.1, frequency, p.2, nm.2⟩]
    | none => []
  else []

/-- Frame read out of the FIFO backing buffer by performFFTAnalysis: the two
ranges handed out by prepareToRead, over a zeroed frame buffer. -/
def fftFrame (s : PitchState) : List ℚ :=
  let region := AbstractFifo.prepareToRead s.fifo fftSize
  let seg1 := (s.fifoBuffer.drop region.start1).take region.size1
  let seg2 := (s.fifoBuffer.drop region.start2).take region.size2
  (seg1 ++ seg2) ++ List.replicate (fftSize - (seg1.length + seg2.length)) 0

/-- State-level embedding of the monophonic PitchDetector::performFFTAnalysis:
read one frame from the FIFO, obtain the magnitude spectrum (the
windowing/FFT/magnitude kernel is the uninterpreted parameter `spectrum`),
build the candidate list and run the stability tracker. -/
def performFFTAnalysis (spectrum : List ℚ → ℕ → ℚ)
    (findNote : ℚ → Option (String × ℤ)) (s : PitchState) : PitchState :=
  let region := AbstractFifo.prepareToRead s.fifo fftSize
  let fifo1 := AbstractFifo.finishedRead s.fifo (region.size1 + region.size2)
  let cands := monoAnalyze findNote (spectrum (fftFrame s)) s.sampleRate s.magnitudeThreshold
  let hd := updateNoteStability s.noteHistory cands
  { s with fifo := fifo1, candidateNotes := cands,
           noteHistory := hd.1, detectedNotes := hd.2 }

/-- FIFO write of processAudioBlock: copy the block into the two ranges
handed out by prepareToWrite, commit the write, and mark the detector
active. -/
def writeBlockToFifo (s : PitchState) (block : List ℚ) : PitchState :=
  let region := AbstractFifo.prepareToWrite s.fifo block.length
  let buf1 := writeSegment s.fifoBuffer region.start1 (block.take region.size1)
  let buf2 := writeSegment buf1 region.start2 ((block.drop region.size1).take region.size2)
  let fifo1 := AbstractFifo.finishedWrite s.fifo (region.size1 + region.size2)
  { s with isActive := true, fifoBuffer := buf2, fifo := fifo1 }

open Classical in
/-- Embedding of PitchDetector::processAudioBlock: empty blocks are a no-op;
blocks whose RMS is below the noise gate deactivate the detector and clear
the published notes; otherwise the block is written into the FIFO and one
analysis cycle runs when a full frame is available. -/
noncomputable def processAudioBlock (spectrum : List ℚ → ℕ → ℚ)
    (findNote : ℚ → Option (String × ℤ)) (s : PitchState) (block : List ℚ) : PitchState :=
  if block.length = 0 then s
  else if calculateRMS block < ((s.noiseGateThreshold : ℚ) : ℝ) then
    { s with isActive := false, detectedNotes := [] }
  else if fftSize ≤ AbstractFifo.getNumReady (writeBlockToFifo s block).fifo then
    performFFTAnalysis spectrum findNote (writeBlockToFifo s block)
  else writeBlockToFifo s block

/-- Indices of a FifoRegion, as used by the std::copy calls. -/
def regionIndices (r : FifoRegion) : List ℕ :=
  List.range' r.start1 r.size1 ++ List.range' r.start2 r.size2

open Classical in
/-- Observer for claim C7: every index of the FIFO backing buffer that one
processAudioBlock call reads or writes (the ranges handed out by
prepareToWrite, and by prepareToRead when an analysis cycle runs). -/
noncomputable def blockAccessedIndices (s : PitchState) (block : List ℚ) : List ℕ :=
  if block.length = 0 then []
  else if calculateRMS block < ((s.noiseGateThreshold : ℚ) : ℝ) then []
  else if fftSize ≤ AbstractFifo.getNumReady (writeBlockToFifo s block).fifo then
    regionIndices (AbstractFifo.prepareToWrite s.fifo block.length)
      ++ regionIndices (AbstractFifo.prepareToRead (writeBlockToFifo s block).fifo fftSize)
  else regionIndices (AbstractFifo.prepareToWrite s.fifo block.length)

/-- State after the PitchDetector constructor: the FIFO bookkeeping is
created with fftSize + 1 slots while the backing buffer is resized to
fftSize samples; default thresholds from PitchDetector.h. -/
def initialState : PitchState :=
  { fifo := ⟨fftSize + 1, 0, 0⟩
    fifoBuffer := List.replicate fftSize 0
    detectedNotes := []
    candidateNotes := []
    noteHistory := []
    isActive := false
    magnitudeThreshold := 1 / 50
    noiseGateThreshold := 1 / 1000
    sampleRate := 44100 }

/-- Embedding of PitchDetector::reset. -/
def resetState (s : PitchState) : PitchState :=
  { s with fifoBuffer := List.replicate s.fifoBuffer.length 0
           fifo := { s.fifo with validStart := 0, validEnd := 0 }
           detectedNotes := []
           candidateNotes := []
           noteHistory := []
           isActive := false }

/-- Embedding of PitchDetector::prepare. -/
def prepare (s : PitchState) (sampleRate : ℚ) : PitchState :=
  resetState { s with sampleRate := sampleRate }

/-- Embedding of PitchDetector::getDetectedNotes. -/
def getDetectedNotes (s : PitchState) : List DetectedNote :=
  s.detectedNotes

/-- States of the monophonic detector reachable from construction through
any sequence of processAudioBlock, reset and prepare calls. -/
inductive Reachable (spectrum : List ℚ → ℕ → ℚ)
    (findNote : ℚ → Option (String × ℤ)) : PitchState → Prop
  | init : Reachable spectrum findNote initialState
  | step {s : PitchState} (block : List ℚ) :
      Reachable spectrum findNote s →
      Reachable spectrum findNote (processAudioBlock spectrum findNote s block)
  | reset {s : PitchState} :
      Reachable spectrum findNote s → Reachable spectrum findNote (resetState s)
  | prep {s : PitchState} (sampleRate : ℚ) :
      Reachable spectrum findNote s → Reachable spectrum findNote (prepare s sampleRate)

/-! ## Range-table classifier (initializeFrequencyMap, findNoteForFrequency) -/

/-- Embedding of PitchDetector::midiNoteToFrequency:
440 * 2^((midiNote - 69) / 12). -/
noncomputable def midiNoteToFrequency (midiNote : ℤ) : ℝ :=
  440 * (2 : ℝ) ^ (((midiNote : ℝ) - 69) / 12)

/-- Embedding of the monophonic PitchDetector::midiNoteToName (note name
without octave suffix). -/
def midiNoteToName (midiNote : ℤ) : String :=
  if midiNote < 0 ∨ 127 < midiNote then "Invalid"
  else noteNames.getD (midiNote % 12).toNat ""

/-- Lower boundary of a note's range: geometric mean with the semitone
below, as computed in initializeFrequencyMap. -/
noncomputable def noteMinFrequency (midiNote : ℤ) : ℝ :=
  Real.sqrt (midiNoteToFrequency (midiNote - 1) * midiNoteToFrequency midiNote)

/-- Upper boundary of a note's range: geometric mean with the semitone
above, as computed in initializeFrequencyMap. -/
noncomputable def noteMaxFrequency (midiNote : ℤ) : ℝ :=
  Real.sqrt (midiNoteToFrequency midiNote * midiNoteToFrequency (midiNote + 1))

/-- An entry of the note-frequency range table (struct NoteFrequencyRange). -/
structure NoteFrequencyRange where
  noteName : String
  midiNoteNumber : ℤ
  centerFrequency : ℝ
  minFrequency : ℝ
  maxFrequency : ℝ

/-- One table entry, as built in the loop body of initializeFrequencyMap. -/
noncomputable def makeRange (midiNote : ℤ) : NoteFrequencyRange :=
  { noteName := midiNoteToName midiNote
    midiNoteNumber := midiNote
    centerFrequency := midiNoteToFrequency midiNote
    minFrequency := noteMinFrequency midiNote
    maxFrequency := noteMaxFrequency midiNote }

/-- Embedding of PitchDetector::initializeFrequencyMap: entries for MIDI
notes 24 through 96. -/
noncomputable def frequencyMap : List NoteFrequencyRange :=
  (List.range 73).map (fun i => makeRange (24 + (i : ℤ)))

open Classical in
/-- Embedding of the search loop of PitchDetector::findNoteForFrequency:
first entry whose half-open range [min, max) contains the frequency. -/
noncomputable def findNoteInRanges (frequency : ℝ) :
    List NoteFrequencyRange → Option NoteFrequencyRange
  | [] => none
  | r :: rest =>
    if r.minFrequency ≤ frequency ∧ frequency < r.maxFrequency then some r
    else findNoteInRanges frequency rest

/-- Embedding of PitchDetector::findNoteForFrequency over the precomputed
table. -/
noncomputable def findNoteForFrequency (frequency : ℝ) : Option NoteFrequencyRange :=
  findNoteInRanges frequency frequencyMap

/-- Frame count of the first history entry tracking a given MIDI note
(0 when no entry tracks it); observer used in the stability proofs. -/
def historyFrames (hist : List NoteHistory) (m : ℤ) : ℕ :=
  match hist.find? (fun e => e.midiNote = m) with
  | some e => e.consecutiveFrames
  | none => 0

/-- MIDI notes tracked by a history list, in order. -/
def historyMidis (hist : List NoteHistory) : List ℤ :=
  hist.map (fun e => e.midiNote)

/-! ## Helper lemmas -/

theorem sortNotesDesc_sorted (l : List DetectedNote) :
    List.Sorted byMagnitudeDesc (sortNotesDesc l) :=
  List.sorted_insertionSort byMagnitudeDesc l

theorem sortNotesDesc_perm (l : List DetectedNote) :
    (sortNotesDesc l).Perm l :=
  List.perm_insertionSort byMagnitudeDesc l

theorem sortNotesDesc_mem {n : DetectedNote} {l : List DetectedNote} :
    n ∈ sortNotesDesc l ↔ n ∈ l :=
  (sortNotesDesc_perm l).mem_iff

theorem sorted_head_max {l : List DetectedNote}
    (hs : List.Sorted byMagnitudeDesc l) :
    ∀ n ∈ l, n.magnitude ≤ l.headI.magnitude := by
  cases l with
  | nil => simp
  | cons h t =>
    intro n hn
    rcases List.mem_cons.mp hn with rfl | hnt
    · exact le_refl _
    · exact (List.pairwise_cons.mp hs).1 n hnt

/-! ## Claim C9: empty recording yields the explicit no-notes outcome -/

/-- C9: if stopRecording is called with an empty recorded note sequence, the
detected key becomes the string "No notes recorded" (not a guessed key) and
stopRecording returns the empty sequence. -/
theorem stopRecording_empty_no_notes (p : ProcessorState)
    (h : p.recordedNotes = []) :
    (stopRecording p).1 = [] ∧
    (stopRecording p).2.detectedKey = "No notes recorded" := by
  simp [stopRecording, h]

/-- Witness for C9 at a concrete processor state. -/
theorem stopRecording_empty_no_notes_witness :
    (⟨true, [], "", ""⟩ : ProcessorState).recordedNotes = [] ∧
    ((stopRecording ⟨true, [], "", ""⟩).1 = [] ∧
      (stopRecording ⟨true, [], "", ""⟩).2.detectedKey = "No notes recorded") :=
  ⟨rfl, stopRecording_empty_no_notes ⟨true, [], "", ""⟩ rfl⟩

/-! ## Claim C4: relative-magnitude pruning at 40% of the strongest note -/

/-- C4: after sorting by magnitude descending, the head of the sorted list is
a strongest note, and a note survives the pruning step exactly when its
magnitude is not below 40% of that strongest magnitude; in particular, of
three candidates with magnitudes 1, 1/2 and 3/10, the 3/10 one is dropped
and the other two are kept. -/
theorem pruneWeakNotes_forty_percent :
    (∀ notes : List DetectedNote, notes ≠ [] →
      (sortNotesDesc notes).headI ∈ notes ∧
      (∀ n ∈ notes, n.magnitude ≤ (sortNotesDesc notes).headI.magnitude) ∧
      (∀ n : DetectedNote,
        n ∈ pruneWeakNotes (sortNotesDesc notes) ↔
          n ∈ notes ∧
            ¬ n.magnitude < (sortNotesDesc notes).headI.magnitude * (2 / 5))) ∧
    pruneWeakNotes (sortNotesDesc
        [⟨"C", 100, 1, 60⟩, ⟨"E", 200, 1/2, 64⟩, ⟨"G", 300, 3/10, 67⟩])
      = [⟨"C", 100, 1, 60⟩, ⟨"E", 200, 1/2, 64⟩] := by
  constructor
  · intro notes hne
    have hsne : sortNotesDesc notes ≠ [] := by
      intro h0
      have hp := sortNotesDesc_perm notes
      rw [h0] at hp
      exact hne hp.symm.eq_nil
    obtain ⟨h, t, hht⟩ := List.exists_cons_of_ne_nil hsne
    refine ⟨?_, ?_, ?_⟩
    · have : (sortNotesDesc notes).headI ∈ sortNotesDesc notes := by
        rw [hht]; exact List.mem_cons_self _ _
      exact sortNotesDesc_mem.mp this
    · intro n hn
      exact sorted_head_max (sortNotesDesc_sorted notes) n (sortNotesDesc_mem.mpr hn)
    · intro n
      have hhead : (sortNotesDesc notes).headI = h := by rw [hht]; rfl
      have hfil : pruneWeakNotes (sortNotesDesc notes)
          = (sortNotesDesc notes).filter
              (fun m => !(m.magnitude < h.magnitude * (2 / 5))) := by
        rw [hht]; rfl
      rw [hhead, hfil]
      simp [List.mem_filter, sortNotesDesc_mem]
  · norm_num [pruneWeakNotes, sortNotesDesc, List.insertionSort,
      List.orderedInsert, byMagnitudeDesc, List.filter]

/-- Witness for C4 at a concrete one-note list. -/
theorem pruneWeakNotes_forty_percent_witness :
    (([⟨"A", 440, 1, 69⟩] : List DetectedNote) ≠ []) ∧
    ((sortNotesDesc [⟨"A", 440, 1, 69⟩]).headI ∈ ([⟨"A", 440, 1, 69⟩] : List DetectedNote) ∧
      (∀ n ∈ ([⟨"A", 440, 1, 69⟩] : List DetectedNote),
        n.magnitude ≤ (sortNotesDesc [⟨"A", 440, 1, 69⟩]).headI.magnitude) ∧
      (∀ n : DetectedNote,
        n ∈ pruneWeakNotes (sortNotesDesc [⟨"A", 440, 1, 69⟩]) ↔
          n ∈ ([⟨"A", 440, 1, 69⟩] : List DetectedNote) ∧
            ¬ n.magnitude < (sortNotesDesc [⟨"A", 440, 1, 69⟩]).headI.magnitude * (2 / 5))) :=
  ⟨by simp, pruneWeakNotes_forty_percent.1 [⟨"A", 440, 1, 69⟩] (by simp)⟩

/-! ## Claim C6: the noise gate short-circuits processing -/

/-- C6: a block whose RMS is below the noise-gate floor deactivates the
detector, clears the published notes, and changes nothing else: the FIFO
bookkeeping and its backing buffer are untouched and no analysis runs,
whatever the block's spectral content (the spectrum parameter is arbitrary). -/
theorem noiseGate_blocks_processing (spectrum : List ℚ → ℕ → ℚ)
    (findNote : ℚ → Option (String × ℤ)) (s : PitchState) (block : List ℚ)
    (hne : block.length ≠ 0)
    (hrms : calculateRMS block < ((s.noiseGateThreshold : ℚ) : ℝ)) :
    processAudioBlock spectrum findNote s block
      = { s with isActive := false, detectedNotes := [] } := by
  rw [processAudioBlock, if_neg hne, if_pos hrms]

/-- Witness for C6: a single zero sample has RMS 0, below the default
noise-gate floor of 1/1000. -/
theorem noiseGate_blocks_processing_witness :
    (([(0 : ℚ)] : List ℚ).length ≠ 0) ∧
    (calculateRMS [(0 : ℚ)] < ((initialState.noiseGateThreshold : ℚ) : ℝ)) ∧
    processAudioBlock (fun _ _ => 0) (fun _ => none) initialState [(0 : ℚ)]
      = { initialState with isActive := false, detectedNotes := [] } := by
  have h1 : (([(0 : ℚ)] : List ℚ).length ≠ 0) := by simp
  have h2 : calculateRMS [(0 : ℚ)] < ((initialState.noiseGateThreshold : ℚ) : ℝ) := by
    have hz : calculateRMS [(0 : ℚ)] = 0 := by
      simp [calculateRMS, sumOfSquares]
    rw [hz]
    norm_num [initialState]
  exact ⟨h1, h2, noiseGate_blocks_processing _ _ _ _ h1 h2⟩

/-! ## Claim C3: harmonic filtering in the multi-peak variant -/

theorem harmonicFold_sub {sr : ℚ} :
    ∀ (l acc : List ℕ), acc ⊆ l.foldl (harmonicFilterStep sr) acc := by
  intro l
  induction l with
  | nil => intro acc; simp
  | cons b t ih =>
    intro acc
    refine List.Subset.trans ?_ (ih (harmonicFilterStep sr acc b))
    rw [harmonicFilterStep]
    split
    · exact List.Subset.refl acc
    · exact List.subset_append_left acc [b]

theorem harmonicFold_mem {sr : ℚ} :
    ∀ (l acc : List ℕ) (x : ℕ),
      x ∈ l.foldl (harmonicFilterStep sr) acc → x ∈ acc ∨ x ∈ l := by
  intro l
  induction l with
  | nil => intro acc x hx; exact Or.inl hx
  | cons b t ih =>
    intro acc x hx
    rcases ih (harmonicFilterStep sr acc b) x hx with h | h
    · rw [harmonicFilterStep] at h
      split at h
      · exact Or.inl h
      · rcases List.mem_append.mp h with h | h
        · exact Or.inl h
        · exact Or.inr (List.mem_cons.mpr (Or.inl (List.mem_singleton.mp h)))
    · exact Or.inr (List.mem_cons.mpr (Or.inr h))

theorem harmonicFold_spec {sr : ℚ} :
    ∀ (l acc : List ℕ),
      (∀ a ∈ acc, ∀ b ∈ l, a < b) → List.Sorted (· < ·) l →
      ∀ k ∈ l,
        (k ∉ l.foldl (harmonicFilterStep sr) acc ↔
          ∃ j ∈ l.foldl (harmonicFilterStep sr) acc,
            j < k ∧ isNearHarmonic sr j k = true) := by
  intro l
  induction l with
  | nil => intro acc _ _ k hk; cases hk
  | cons b t ih =>
    intro acc hsep hsort k hk
    have hsb : ∀ c ∈ t, b < c := (List.sorted_cons.mp hsort).1
    have hsort' : List.Sorted (· < ·) t := (List.sorted_cons.mp hsort).2
    have hsep' : ∀ a ∈ harmonicFilterStep sr acc b, ∀ c ∈ t, a < c := by
      intro a ha c hc
      rw [harmonicFilterStep] at ha
      split at ha
      · exact hsep a ha c (List.mem_cons.mpr (Or.inr hc))
      · rcases List.mem_append.mp ha with h | h
        · exact hsep a h c (List.mem_cons.mpr (Or.inr hc))
        · rw [List.mem_singleton.mp h]; exact hsb c hc
    have hout : (b :: t).foldl (harmonicFilterStep sr) acc
        = t.foldl (harmonicFilterStep sr) (harmonicFilterStep sr acc b) := rfl
    -- elements of the final output below b are exactly the initial acc
    have hlow : ∀ j ∈ (b :: t).foldl (harmonicFilterStep sr) acc, j < b → j ∈ acc := by
      intro j hj hjb
      rw [hout] at hj
      rcases harmonicFold_mem t (harmonicFilterStep sr acc b) j hj with h | h
      · rw [harmonicFilterStep] at h
        split at h
        · exact h
        · rcases List.mem_append.mp h with h | h
          · exact h
          · exact absurd (List.mem_singleton.mp h) (by omega)
      · exact absurd hjb (by have := hsb j h; omega)
    rcases List.mem_cons.mp hk with rfl | hkt
    · -- k is the head b
      by_cases hrej : acc.any (fun lower => isNearHarmonic sr lower k) = true
      · -- rejected: k does not enter and some accepted lower peak witnesses it
        have hstep : harmonicFilterStep sr acc k = acc := by
          rw [harmonicFilterStep, if_pos hrej]
        constructor
        · intro _
          obtain ⟨j, hj, hjn⟩ := List.any_eq_true.mp hrej
          refine ⟨j, ?_, ?_, hjn⟩
          · rw [hout]
            have hjs : j ∈ harmonicFilterStep sr acc k := by rw [hstep]; exact hj
            exact harmonicFold_sub t _ hjs
          · exact hsep j hj k (List.mem_cons_self _ _)
        · intro _
          intro hkin
          rw [hout, hstep] at hkin
          rcases harmonicFold_mem t acc k hkin with h | h
          · exact absurd (hsep k h k (List.mem_cons_self _ _)) (by omega)
          · exact absurd (hsb k h) (by omega)
      · -- accepted: k is in the output and no accepted lower peak is near
        have hstep : harmonicFilterStep sr acc k = acc ++ [k] := by
          rw [harmonicFilterStep, if_neg hrej]
        constructor
        · intro hk0
          exfalso
          apply hk0
          rw [hout, hstep]
          exact harmonicFold_sub t _ (List.mem_append.mpr (Or.inr (List.mem_singleton_self k)))
        · rintro ⟨j, hj, hjk, hjn⟩
          exfalso
          apply hrej
          exact List.any_eq_true.mpr ⟨j, hlow j hj hjk, hjn⟩
    · -- k is in the tail
      have := ih (harmonicFilterStep sr acc b) hsep' hsort' k hkt
      rw [hout]
      exact this

/-- C3: in the multi-peak harmonic filter (bins processed in ascending
order), a candidate peak is absent from the output exactly when it lies
within the 10%-of-the-lower-peak tolerance of the 2nd, 3rd or 4th harmonic
of some accepted lower-frequency peak; in particular, of two peaks at bins
j and 2j (frequencies f and 2f), only the one at j survives. -/
theorem harmonicFilter_spec :
    (∀ (sr : ℚ) (peaks : List ℕ), peaks.Nodup →
      ∀ k ∈ peaks,
        (k ∉ harmonicFilter sr peaks ↔
          ∃ j ∈ harmonicFilter sr peaks, j < k ∧ isNearHarmonic sr j k = true)) ∧
    (∀ (sr : ℚ) (j : ℕ), 0 < sr → 0 < j → harmonicFilter sr [j, 2 * j] = [j]) := by
  constructor
  · intro sr peaks hnd k hk
    have hperm := List.perm_insertionSort binAsc peaks
    have hsorted : List.Sorted (· < ·) (List.insertionSort binAsc peaks) := by
      have h1 : List.Sorted binAsc (List.insertionSort binAsc peaks) :=
        List.sorted_insertionSort binAsc peaks
      have h2 : (List.insertionSort binAsc peaks).Nodup := hperm.nodup_iff.mpr hnd
      exact List.Pairwise.imp₂ (fun a b hab hne => lt_of_le_of_ne hab hne) h1 h2
    have hk' : k ∈ List.insertionSort binAsc peaks := hperm.mem_iff.mpr hk
    exact harmonicFold_spec (List.insertionSort binAsc peaks) [] (by simp) hsorted k hk'
  · intro sr j hsr hj
    have hsorted : List.Sorted binAsc [j, 2 * j] := by
      simp [binAsc, List.sorted_cons]
      omega
    have hnear : isNearHarmonic sr j (2 * j) = true := by
      rw [isNearHarmonic]
      apply List.any_eq_true.mpr
      refine ⟨2, by simp, ?_⟩
      apply decide_eq_true
      have h2h : ((2 : ℕ) : ℚ) * binFrequency sr j = binFrequency sr (2 * j) := by
        rw [binFrequency, binFrequency]
        push_cast
        ring
      rw [h2h, sub_self, abs_zero, binFrequency]
      have hj' : (0 : ℚ) < (j : ℚ) := by exact_mod_cast hj
      have hfft : (0 : ℚ) < (fftSize : ℚ) := by norm_num [fftSize, fftOrder]
      exact mul_pos (div_pos (mul_pos hj' hsr) hfft) (by norm_num)
    rw [harmonicFilter, hsorted.insertionSort_eq]
    have h1 : harmonicFilterStep sr [] j = [j] := by
      rw [harmonicFilterStep]
      simp
    have h2 : harmonicFilterStep sr [j] (2 * j) = [j] := by
      rw [harmonicFilterStep, if_pos]
      exact List.any_eq_true.mpr ⟨j, List.mem_singleton_self j, hnear⟩
    simp [List.foldl, h1, h2]

/-- Witness for C3 at concrete inputs: bins 5 and 10 at a 44100 Hz sample
rate. -/
theorem harmonicFilter_spec_witness :
    (([5, 10] : List ℕ).Nodup ∧ (10 : ℕ) ∈ ([5, 10] : List ℕ) ∧
      ((10 : ℕ) ∉ harmonicFilter 44100 [5, 10] ↔
        ∃ j ∈ harmonicFilter 44100 [5, 10],
          j < 10 ∧ isNearHarmonic 44100 j 10 = true)) ∧
    ((0 : ℚ) < 44100 ∧ (0 : ℕ) < 5 ∧ harmonicFilter 44100 [5, 2 * 5] = [5]) := by
  refine ⟨⟨by simp, by simp, ?_⟩, by norm_num, by norm_num, ?_⟩
  · exact harmonicFilter_spec.1 44100 [5, 10] (by simp) 10 (by simp)
  · exact harmonicFilter_spec.2 44100 5 (by norm_num) (by norm_num)

/-! ## Claim C2: stability tracker lemmas -/

theorem updateNoteStability_fst (hist : List NoteHistory) (cands : List DetectedNote) :
    (updateNoteStability hist cands).1
      = pruneHistory (cands.foldl addCandidate hist) cands := rfl

theorem updateNoteStability_snd (hist : List NoteHistory) (cands : List DetectedNote) :
    (updateNoteStability hist cands).2
      = sortNotesDesc
          (buildDetected (pruneHistory (cands.foldl addCandidate hist) cands) cands) := rfl

theorem pruneHistory_mem {hist : List NoteHistory} {cands : List DetectedNote}
    {e : NoteHistory} (he : e ∈ pruneHistory hist cands) :
    e ∈ hist ∧ ∃ c ∈ cands, c.midiNoteNumber = e.midiNote := by
  rw [pruneHistory] at he
  have h := List.mem_filter.mp he
  refine ⟨h.1, ?_⟩
  obtain ⟨c, hc, hcm⟩ := List.any_eq_true.mp h.2
  exact ⟨c, hc, of_decide_eq_true hcm⟩

theorem buildDetected_mem {hist : List NoteHistory} {cands : List DetectedNote}
    {n : DetectedNote} (hn : n ∈ buildDetected hist cands) :
    n ∈ cands ∧ ∃ e ∈ hist,
      e.midiNote = n.midiNoteNumber ∧ stabilityFramesRequired ≤ e.consecutiveFrames := by
  rw [buildDetected] at hn
  obtain ⟨e, he, heq⟩ := List.mem_filterMap.mp hn
  by_cases hf : stabilityFramesRequired ≤ e.consecutiveFrames
  · rw [if_pos hf] at heq
    have hmem := List.mem_of_find?_eq_some heq
    have hpred := List.find?_some heq
    simp only [decide_eq_true_eq] at hpred
    exact ⟨hmem, e, he, hpred.symm, hf⟩
  · rw [if_neg hf] at heq
    cases heq

theorem addCandidate_frames_bound {m : ℤ} {f : ℕ} :
    ∀ (h : List NoteHistory) (c : DetectedNote),
      (∀ e ∈ h, e.midiNote = m → e.consecutiveFrames ≤ f) →
      ∀ e ∈ addCandidate h c, e.midiNote = m →
        e.consecutiveFrames ≤ f + (if c.midiNoteNumber = m then 1 else 0) := by
  intro h
  induction h with
  | nil =>
    intro c _ e he hm
    rw [addCandidate] at he
    rw [List.mem_singleton.mp he] at hm ⊢
    have hcm : c.midiNoteNumber = m := hm
    rw [if_pos hcm]
    show 1 ≤ f + 1
    omega
  | cons a t ih =>
    intro c hb e he hm
    rw [addCandidate] at he
    by_cases hac : a.midiNote = c.midiNoteNumber
    · rw [if_pos hac] at he
      rcases List.mem_cons.mp he with rfl | het
      · have ham : a.midiNote = m := hm
        have hfa : a.consecutiveFrames ≤ f := hb a (List.mem_cons_self a t) ham
        have hcm : c.midiNoteNumber = m := by rw [← hac]; exact ham
        rw [if_pos hcm]
        show a.consecutiveFrames + 1 ≤ f + 1
        omega
      · have := hb e (List.mem_cons.mpr (Or.inr het)) hm
        split <;> omega
    · rw [if_neg hac] at he
      rcases List.mem_cons.mp he with rfl | het
      · have := hb e (List.mem_cons_self e t) hm
        split <;> omega
      · exact ih c (fun x hx => hb x (List.mem_cons.mpr (Or.inr hx))) e het hm

theorem foldl_addCandidate_frames_bound {m : ℤ} :
    ∀ (cands : List DetectedNote) (h : List NoteHistory) (f : ℕ),
      (∀ e ∈ h, e.midiNote = m → e.consecutiveFrames ≤ f) →
      ∀ e ∈ cands.foldl addCandidate h, e.midiNote = m →
        e.consecutiveFrames ≤ f + (cands.map (fun c => c.midiNoteNumber)).count m := by
  intro cands
  induction cands with
  | nil => intro h f hb e he hm; simpa using hb e he hm
  | cons c t ih =>
    intro h f hb e he hm
    have hb' := addCandidate_frames_bound h c hb
    have hrec := ih (addCandidate h c) (f + (if c.midiNoteNumber = m then 1 else 0)) hb' e he hm
    have hcount : ((c :: t).map (fun x => x.midiNoteNumber)).count m
        = (t.map (fun x => x.midiNoteNumber)).count m
          + (if c.midiNoteNumber = m then 1 else 0) := by
      by_cases hc : c.midiNoteNumber = m
      · rw [List.map_cons, List.count_cons, if_pos hc, if_pos (beq_iff_eq.mpr hc)]
      · rw [List.map_cons, List.count_cons, if_neg hc, if_neg (by simp [hc])]
    rw [hcount]
    omega

theorem historyFrames_nil (m : ℤ) : historyFrames [] m = 0 := rfl

theorem historyFrames_cons_eq {a : NoteHistory} {t : List NoteHistory} {m : ℤ}
    (ham : a.midiNote = m) :
    historyFrames (a :: t) m = a.consecutiveFrames := by
  rw [historyFrames]
  simp [List.find?, ham]

theorem historyFrames_cons_ne {a : NoteHistory} {t : List NoteHistory} {m : ℤ}
    (ham : ¬ a.midiNote = m) :
    historyFrames (a :: t) m = historyFrames t m := by
  rw [historyFrames, historyFrames]
  simp [List.find?, ham]

theorem historyFrames_addCandidate (h : List NoteHistory) (c : DetectedNote) (m : ℤ) :
    historyFrames (addCandidate h c) m
      = historyFrames h m + (if c.midiNoteNumber = m then 1 else 0) := by
  induction h with
  | nil =>
    by_cases hc : c.midiNoteNumber = m
    · rw [addCandidate,
        historyFrames_cons_eq (show (⟨c.midiNoteNumber, 1, c.magnitude⟩ : NoteHistory).midiNote = m from hc),
        historyFrames_nil, if_pos hc]
    · rw [addCandidate,
        historyFrames_cons_ne (show ¬ (⟨c.midiNoteNumber, 1, c.magnitude⟩ : NoteHistory).midiNote = m from hc),
        historyFrames_nil, if_neg hc]
  | cons a t ih =>
    rw [addCandidate]
    by_cases hac : a.midiNote = c.midiNoteNumber
    · rw [if_pos hac]
      by_cases ham : a.midiNote = m
      · have hcm : c.midiNoteNumber = m := by rw [← hac]; exact ham
        rw [historyFrames_cons_eq (show ({ a with consecutiveFrames := a.consecutiveFrames + 1, totalMagnitude := a.totalMagnitude + c.magnitude } : NoteHistory).midiNote = m from ham),
          historyFrames_cons_eq ham, if_pos hcm]
      · have hcm : ¬ c.midiNoteNumber = m := by rw [← hac]; exact ham
        rw [historyFrames_cons_ne (show ¬ ({ a with consecutiveFrames := a.consecutiveFrames + 1, totalMagnitude := a.totalMagnitude + c.magnitude } : NoteHistory).midiNote = m from ham),
          historyFrames_cons_ne ham, if_neg hcm]
        rfl
    · rw [if_neg hac]
      by_cases ham : a.midiNote = m
      · have hcm : ¬ c.midiNoteNumber = m := fun hx => hac (ham.trans hx.symm)
        rw [historyFrames_cons_eq ham, historyFrames_cons_eq ham, if_neg hcm]
        rfl
      · rw [historyFrames_cons_ne ham, historyFrames_cons_ne ham, ih]

theorem historyFrames_foldl (m : ℤ) :
    ∀ (cands : List DetectedNote) (h : List NoteHistory),
      historyFrames (cands.foldl addCandidate h) m
        = historyFrames h m + (cands.map (fun c => c.midiNoteNumber)).count m := by
  intro cands
  induction cands with
  | nil => intro h; simp
  | cons c t ih =>
    intro h
    rw [List.foldl_cons, ih, historyFrames_addCandidate]
    by_cases hc : c.midiNoteNumber = m
    · simp [List.count_cons, hc]
      omega
    · simp [List.count_cons, hc, beq_eq_false_iff_ne.mpr hc]

theorem historyFrames_pruneHistory (cands : List DetectedNote) (m : ℤ)
    (hm : ∃ c ∈ cands, c.midiNoteNumber = m) :
    ∀ h : List NoteHistory, historyFrames (pruneHistory h cands) m = historyFrames h m := by
  intro h
  induction h with
  | nil => rfl
  | cons a t ih =>
    by_cases hkeep : (cands.any fun c => decide (c.midiNoteNumber = a.midiNote)) = true
    · have h1 : pruneHistory (a :: t) cands = a :: pruneHistory t cands := by
        rw [pruneHistory, List.filter_cons, if_pos hkeep]; rfl
      rw [h1]
      by_cases ham : a.midiNote = m
      · rw [historyFrames_cons_eq ham, historyFrames_cons_eq ham]
      · rw [historyFrames_cons_ne ham, historyFrames_cons_ne ham, ih]
    · have ham : ¬ a.midiNote = m := by
        intro ham
        apply hkeep
        obtain ⟨c, hc, hcm⟩ := hm
        exact List.any_eq_true.mpr ⟨c, hc, decide_eq_true (by rw [hcm, ham])⟩
      have h1 : pruneHistory (a :: t) cands = pruneHistory t cands := by
        rw [pruneHistory, List.filter_cons, if_neg hkeep]; rfl
      rw [h1, historyFrames_cons_ne ham, ih]

theorem historyFrames_entry (h : List NoteHistory) (m : ℤ)
    (hpos : historyFrames h m ≠ 0) :
    ∃ e ∈ h, e.midiNote = m ∧ e.consecutiveFrames = historyFrames h m := by
  cases hfind : h.find? (fun e => e.midiNote = m) with
  | none =>
    exfalso
    apply hpos
    rw [historyFrames, hfind]
  | some e =>
    have hp := List.find?_some hfind
    simp only [decide_eq_true_eq] at hp
    refine ⟨e, List.mem_of_find?_eq_some hfind, hp, ?_⟩
    rw [historyFrames, hfind]

/-- C2: in the stability tracker, a fresh note present in exactly one cycle
and absent in the next is never published (and its history entry is gone),
while a note present in two consecutive cycles is published after the
second one. -/
theorem updateNoteStability_two_frame_threshold :
    (∀ (hist : List NoteHistory) (cands1 cands2 : List DetectedNote) (m : ℤ),
      (∀ e ∈ hist, e.midiNote ≠ m) →
      (cands1.map (fun c => c.midiNoteNumber)).count m = 1 →
      (∀ c ∈ cands2, c.midiNoteNumber ≠ m) →
      (∀ n ∈ (updateNoteStability hist cands1).2, n.midiNoteNumber ≠ m) ∧
      (∀ n ∈ (updateNoteStability (updateNoteStability hist cands1).1 cands2).2,
        n.midiNoteNumber ≠ m) ∧
      (∀ e ∈ (updateNoteStability (updateNoteStability hist cands1).1 cands2).1,
        e.midiNote ≠ m)) ∧
    (∀ (hist : List NoteHistory) (cands1 cands2 : List DetectedNote) (m : ℤ),
      (∃ c ∈ cands1, c.midiNoteNumber = m) →
      (∃ c ∈ cands2, c.midiNoteNumber = m) →
      ∃ n ∈ (updateNoteStability (updateNoteStability hist cands1).1 cands2).2,
        n.midiNoteNumber = m) := by
  constructor
  · intro hist cands1 cands2 m hfresh hcount habsent
    refine ⟨?_, ?_, ?_⟩
    · -- not published after the first cycle: the entry has exactly one frame
      intro n hn hnm
      rw [updateNoteStability_snd] at hn
      obtain ⟨-, e, he, hem, hef⟩ := buildDetected_mem (sortNotesDesc_mem.mp hn)
      have he1 : e ∈ cands1.foldl addCandidate hist := (pruneHistory_mem he).1
      have hbound := foldl_addCandidate_frames_bound cands1 hist 0
        (fun x hx hxm => absurd hxm (hfresh x hx)) e he1 (by rw [hem, hnm])
      rw [hcount, stabilityFramesRequired] at *
      omega
    · -- not published after the second cycle: published notes are candidates
      intro n hn hnm
      rw [updateNoteStability_snd] at hn
      obtain ⟨hcand, -⟩ := buildDetected_mem (sortNotesDesc_mem.mp hn)
      exact habsent n hcand hnm
    · -- the history entry is deleted on the absence cycle
      intro e he hem
      rw [updateNoteStability_fst] at he
      obtain ⟨-, c, hc, hcm⟩ := pruneHistory_mem he
      exact habsent c hc (by rw [hcm, hem])
  · intro hist cands1 cands2 m hm1 hm2
    have hc1 : 1 ≤ (cands1.map (fun c => c.midiNoteNumber)).count m := by
      obtain ⟨c, hc, hcm⟩ := hm1
      exact List.count_pos_iff.mpr (List.mem_map.mpr ⟨c, hc, hcm⟩)
    have hc2 : 1 ≤ (cands2.map (fun c => c.midiNoteNumber)).count m := by
      obtain ⟨c, hc, hcm⟩ := hm2
      exact List.count_pos_iff.mpr (List.mem_map.mpr ⟨c, hc, hcm⟩)
    -- frames of the first matching entry after the first cycle
    have hf1 : 1 ≤ historyFrames (updateNoteStability hist cands1).1 m := by
      rw [updateNoteStability_fst, historyFrames_pruneHistory cands1 m hm1,
        historyFrames_foldl]
      omega
    -- frames after the second cycle
    have hf2 : 2 ≤ historyFrames
        (updateNoteStability (updateNoteStability hist cands1).1 cands2).1 m := by
      rw [updateNoteStability_fst, historyFrames_pruneHistory cands2 m hm2,
        historyFrames_foldl]
      omega
    obtain ⟨e, he, hem, hef⟩ := historyFrames_entry
      (updateNoteStability (updateNoteStability hist cands1).1 cands2).1 m (by omega)
    -- the matching candidate of the second cycle is published
    have hfind : ∃ c, cands2.find? (fun c => c.midiNoteNumber = e.midiNote) = some c := by
      have : (cands2.find? (fun c => c.midiNoteNumber = e.midiNote)).isSome = true := by
        rw [List.find?_isSome]
        obtain ⟨c, hc, hcm⟩ := hm2
        exact ⟨c, hc, decide_eq_true (by rw [hcm, hem])⟩
      exact Option.isSome_iff_exists.mp this
    obtain ⟨c, hfc⟩ := hfind
    refine ⟨c, ?_, ?_⟩
    · rw [updateNoteStability_snd]
      apply sortNotesDesc_mem.mpr
      rw [← updateNoteStability_fst, buildDetected]
      apply List.mem_filterMap.mpr
      refine ⟨e, he, ?_⟩
      have hcond : stabilityFramesRequired ≤ e.consecutiveFrames := by
        rw [stabilityFramesRequired, hef]
        exact hf2
      rw [if_pos hcond]
      exact hfc
    · have hp := List.find?_some hfc
      simp only [decide_eq_true_eq] at hp
      rw [hp, hem]

/-- Witness for C2 at concrete inputs (MIDI note 69). -/
theorem updateNoteStability_two_frame_threshold_witness :
    ((∀ e ∈ ([] : List NoteHistory), e.midiNote ≠ 69) ∧
      (([⟨"A", 440, 1, 69⟩] : List DetectedNote).map (fun c => c.midiNoteNumber)).count 69 = 1 ∧
      (∀ c ∈ ([] : List DetectedNote), c.midiNoteNumber ≠ 69) ∧
      (∀ n ∈ (updateNoteStability [] [⟨"A", 440, 1, 69⟩]).2, n.midiNoteNumber ≠ 69)) ∧
    ((∃ c ∈ ([⟨"A", 440, 1, 69⟩] : List DetectedNote), c.midiNoteNumber = 69) ∧
      ∃ n ∈ (updateNoteStability (updateNoteStability [] [⟨"A", 440, 1, 69⟩]).1
          [⟨"A", 440, 1, 69⟩]).2, n.midiNoteNumber = 69) := by
  have h1 : ∀ e ∈ ([] : List NoteHistory), e.midiNote ≠ 69 := by simp
  have h2 : (([⟨"A", 440, 1, 69⟩] : List DetectedNote).map
      (fun c => c.midiNoteNumber)).count 69 = 1 := by decide
  have h3 : ∀ c ∈ ([] : List DetectedNote), c.midiNoteNumber ≠ 69 := by simp
  have hm : ∃ c ∈ ([⟨"A", 440, 1, 69⟩] : List DetectedNote), c.midiNoteNumber = 69 :=
    ⟨⟨"A", 440, 1, 69⟩, List.mem_singleton_self _, rfl⟩
  exact ⟨⟨h1, h2, h3,
      (updateNoteStability_two_frame_threshold.1 [] [⟨"A", 440, 1, 69⟩] [] 69 h1 h2 h3).1⟩,
    hm, updateNoteStability_two_frame_threshold.2 [] [⟨"A", 440, 1, 69⟩]
      [⟨"A", 440, 1, 69⟩] 69 hm hm⟩

/-! ## Claims C8 and C10: reachability invariants -/

theorem historyMidis_cons (a : NoteHistory) (t : List NoteHistory) :
    historyMidis (a :: t) = a.midiNote :: historyMidis t := rfl

theorem addCandidate_midis (h : List NoteHistory) (c : DetectedNote) :
    (c.midiNoteNumber ∈ historyMidis h ∧
      historyMidis (addCandidate h c) = historyMidis h) ∨
    (c.midiNoteNumber ∉ historyMidis h ∧
      historyMidis (addCandidate h c) = historyMidis h ++ [c.midiNoteNumber]) := by
  induction h with
  | nil => exact Or.inr ⟨by simp [historyMidis], rfl⟩
  | cons a t ih =>
    by_cases hac : a.midiNote = c.midiNoteNumber
    · left
      constructor
      · rw [historyMidis_cons]
        exact List.mem_cons.mpr (Or.inl hac.symm)
      · rw [addCandidate, if_pos hac]
        rfl
    · rcases ih with ⟨hmem, heq⟩ | ⟨hmem, heq⟩
      · left
        constructor
        · rw [historyMidis_cons]
          exact List.mem_cons.mpr (Or.inr hmem)
        · rw [addCandidate, if_neg hac, historyMidis_cons, heq, historyMidis_cons]
      · right
        constructor
        · rw [historyMidis_cons]
          intro hx
          rcases List.mem_cons.mp hx with hx | hx
          · exact hac hx.symm
          · exact hmem hx
        · rw [addCandidate, if_neg hac, historyMidis_cons, heq, historyMidis_cons,
            List.cons_append]

theorem addCandidate_nodup {h : List NoteHistory} {c : DetectedNote}
    (hnd : (historyMidis h).Nodup) : (historyMidis (addCandidate h c)).Nodup := by
  rcases addCandidate_midis h c with ⟨-, heq⟩ | ⟨hmem, heq⟩
  · rw [heq]; exact hnd
  · rw [heq]
    simp [List.nodup_append, hnd, hmem]

theorem foldl_addCandidate_nodup (cands : List DetectedNote) :
    ∀ {h : List NoteHistory}, (historyMidis h).Nodup →
      (historyMidis (cands.foldl addCandidate h)).Nodup := by
  induction cands with
  | nil => intro h hnd; exact hnd
  | cons c t ih => intro h hnd; exact ih (addCandidate_nodup hnd)

theorem pruneHistory_sublist (h : List NoteHistory) (cands : List DetectedNote) :
    (pruneHistory h cands).Sublist h :=
  List.filter_sublist h

theorem pruneHistory_nodup {h : List NoteHistory} (cands : List DetectedNote)
    (hnd : (historyMidis h).Nodup) : (historyMidis (pruneHistory h cands)).Nodup := by
  rw [historyMidis] at hnd ⊢
  exact List.Sublist.nodup (List.Sublist.map _ (pruneHistory_sublist h cands)) hnd

theorem nodup_all_eq_length_le {l : List ℤ} {m : ℤ} (hnd : l.Nodup)
    (hall : ∀ x ∈ l, x = m) : l.length ≤ 1 := by
  cases l with
  | nil => simp
  | cons a t =>
    cases t with
    | nil => simp
    | cons b u =>
      exfalso
      have ha := hall a (List.mem_cons_self _ _)
      have hb := hall b (List.mem_cons.mpr (Or.inr (List.mem_cons_self _ _)))
      rw [List.nodup_cons] at hnd
      apply hnd.1
      rw [ha, hb.symm]
      exact List.mem_cons_self _ _

theorem updateNoteStability_nodup {hist : List NoteHistory}
    (cands : List DetectedNote) (hnd : (historyMidis hist).Nodup) :
    (historyMidis (updateNoteStability hist cands).1).Nodup := by
  rw [updateNoteStability_fst]
  exact pruneHistory_nodup cands (foldl_addCandidate_nodup cands hnd)

theorem updateNoteStability_length_le {hist : List NoteHistory}
    {cands : List DetectedNote} (hnd : (historyMidis hist).Nodup)
    (hc : cands.length ≤ 1) :
    (updateNoteStability hist cands).1.length ≤ 1 ∧
      (updateNoteStability hist cands).2.length ≤ 1 := by
  have hnd2 : (historyMidis (updateNoteStability hist cands).1).Nodup :=
    updateNoteStability_nodup cands hnd
  have hlen1 : (updateNoteStability hist cands).1.length ≤ 1 := by
    cases cands with
    | nil =>
      rw [updateNoteStability_fst]
      simp [pruneHistory]
    | cons c t =>
      cases t with
      | nil =>
        have hall : ∀ x ∈ historyMidis (updateNoteStability hist [c]).1, x = c.midiNoteNumber := by
          intro x hx
          rw [historyMidis] at hx
          obtain ⟨e, he, hex⟩ := List.mem_map.mp hx
          rw [updateNoteStability_fst] at he
          obtain ⟨-, c', hc', hcm⟩ := pruneHistory_mem he
          rw [← hex, ← hcm, List.mem_singleton.mp hc']
        have := nodup_all_eq_length_le hnd2 hall
        rw [historyMidis, List.length_map] at this
        exact this
      | cons d u => simp at hc
  refine ⟨hlen1, ?_⟩
  rw [updateNoteStability_snd]
  rw [(sortNotesDesc_perm _).length_eq]
  calc (buildDetected (updateNoteStability hist cands).1 cands).length
      ≤ (updateNoteStability hist cands).1.length := by
        rw [buildDetected]; exact List.length_filterMap_le _ _
    _ ≤ 1 := hlen1

theorem monoAnalyze_length_le (findNote : ℚ → Option (String × ℤ)) (mags : ℕ → ℚ)
    (sampleRate threshold : ℚ) :
    (monoAnalyze findNote mags sampleRate threshold).length ≤ 1 := by
  simp only [monoAnalyze]
  split
  · split <;> simp
  · simp

theorem writeBlockToFifo_noteHistory (s : PitchState) (block : List ℚ) :
    (writeBlockToFifo s block).noteHistory = s.noteHistory := rfl

theorem writeBlockToFifo_candidateNotes (s : PitchState) (block : List ℚ) :
    (writeBlockToFifo s block).candidateNotes = s.candidateNotes := rfl

theorem writeBlockToFifo_detectedNotes (s : PitchState) (block : List ℚ) :
    (writeBlockToFifo s block).detectedNotes = s.detectedNotes := rfl

theorem writeBlockToFifo_fifo (s : PitchState) (block : List ℚ) :
    (writeBlockToFifo s block).fifo
      = AbstractFifo.finishedWrite s.fifo
          ((AbstractFifo.prepareToWrite s.fifo block.length).size1
            + (AbstractFifo.prepareToWrite s.fifo block.length).size2) := rfl

theorem writeBlockToFifo_noiseGateThreshold (s : PitchState) (block : List ℚ) :
    (writeBlockToFifo s block).noiseGateThreshold = s.noiseGateThreshold := rfl

theorem performFFTAnalysis_candidateNotes (spectrum : List ℚ → ℕ → ℚ)
    (findNote : ℚ → Option (String × ℤ)) (s : PitchState) :
    (performFFTAnalysis spectrum findNote s).candidateNotes
      = monoAnalyze findNote (spectrum (fftFrame s)) s.sampleRate s.magnitudeThreshold := rfl

theorem performFFTAnalysis_noteHistory (spectrum : List ℚ → ℕ → ℚ)
    (findNote : ℚ → Option (String × ℤ)) (s : PitchState) :
    (performFFTAnalysis spectrum findNote s).noteHistory
      = (updateNoteStability s.noteHistory
          (monoAnalyze findNote (spectrum (fftFrame s)) s.sampleRate s.magnitudeThreshold)).1 := rfl

theorem performFFTAnalysis_detectedNotes (spectrum : List ℚ → ℕ → ℚ)
    (findNote : ℚ → Option (String × ℤ)) (s : PitchState) :
    (performFFTAnalysis spectrum findNote s).detectedNotes
      = (updateNoteStability s.noteHistory
          (monoAnalyze findNote (spectrum (fftFrame s)) s.sampleRate s.magnitudeThreshold)).2 := rfl

theorem performFFTAnalysis_fifo (spectrum : List ℚ → ℕ → ℚ)
    (findNote : ℚ → Option (String × ℤ)) (s : PitchState) :
    (performFFTAnalysis spectrum findNote s).fifo
      = AbstractFifo.finishedRead s.fifo
          ((AbstractFifo.prepareToRead s.fifo fftSize).size1
            + (AbstractFifo.prepareToRead s.fifo fftSize).size2) := rfl

theorem performFFTAnalysis_noiseGateThreshold (spectrum : List ℚ → ℕ → ℚ)
    (findNote : ℚ → Option (String × ℤ)) (s : PitchState) :
    (performFFTAnalysis spectrum findNote s).noiseGateThreshold
      = s.noiseGateThreshold := rfl

theorem reachable_inv (spectrum : List ℚ → ℕ → ℚ)
    (findNote : ℚ → Option (String × ℤ)) :
    ∀ s : PitchState, Reachable spectrum findNote s →
      (historyMidis s.noteHistory).Nodup ∧ s.candidateNotes.length ≤ 1 ∧
        s.noteHistory.length ≤ 1 ∧ s.detectedNotes.length ≤ 1 := by
  intro s h
  induction h with
  | init => exact ⟨by simp [initialState, historyMidis], by simp [initialState],
      by simp [initialState], by simp [initialState]⟩
  | step block hr ih =>
    rw [processAudioBlock]
    split
    · exact ih
    · split
      · exact ⟨ih.1, ih.2.1, ih.2.2.1, by simp⟩
      · split
        · refine ⟨?_, ?_, ?_, ?_⟩
          · rw [performFFTAnalysis_noteHistory, writeBlockToFifo_noteHistory]
            exact updateNoteStability_nodup _ ih.1
          · rw [performFFTAnalysis_candidateNotes]
            exact monoAnalyze_length_le _ _ _ _
          · rw [performFFTAnalysis_noteHistory, writeBlockToFifo_noteHistory]
            exact (updateNoteStability_length_le ih.1 (monoAnalyze_length_le _ _ _ _)).1
          · rw [performFFTAnalysis_detectedNotes, writeBlockToFifo_noteHistory]
            exact (updateNoteStability_length_le ih.1 (monoAnalyze_length_le _ _ _ _)).2
        · exact ⟨by rw [writeBlockToFifo_noteHistory]; exact ih.1,
            by rw [writeBlockToFifo_candidateNotes]; exact ih.2.1,
            by rw [writeBlockToFifo_noteHistory]; exact ih.2.2.1,
            by rw [writeBlockToFifo_detectedNotes]; exact ih.2.2.2⟩
  | reset hr ih => exact ⟨by simp [resetState, historyMidis], by simp [resetState],
      by simp [resetState], by simp [resetState]⟩
  | prep sr hr ih => exact ⟨by simp [prepare, resetState, historyMidis],
      by simp [prepare, resetState], by simp [prepare, resetState],
      by simp [prepare, resetState]⟩

/-- C10: in the monophonic detector, every reachable state has at most one
candidate note, at most one stability-history entry and at most one
published detected note. -/
theorem monophonic_at_most_one_note (spectrum : List ℚ → ℕ → ℚ)
    (findNote : ℚ → Option (String × ℤ)) (s : PitchState)
    (h : Reachable spectrum findNote s) :
    s.candidateNotes.length ≤ 1 ∧ s.noteHistory.length ≤ 1 ∧
      s.detectedNotes.length ≤ 1 :=
  (reachable_inv spectrum findNote s h).2

/-- Witness for C10 at the freshly constructed detector state. -/
theorem monophonic_at_most_one_note_witness :
    initialState.candidateNotes.length ≤ 1 ∧
      initialState.noteHistory.length ≤ 1 ∧
      initialState.detectedNotes.length ≤ 1 :=
  monophonic_at_most_one_note (fun _ _ => 0) (fun _ => none) initialState
    Reachable.init

theorem reachable_detected_sorted (spectrum : List ℚ → ℕ → ℚ)
    (findNote : ℚ → Option (String × ℤ)) :
    ∀ s : PitchState, Reachable spectrum findNote s →
      List.Sorted byMagnitudeDesc s.detectedNotes := by
  intro s h
  induction h with
  | init => simp [initialState]
  | step block hr ih =>
    rw [processAudioBlock]
    split
    · exact ih
    · split
      · simp
      · split
        · rw [performFFTAnalysis_detectedNotes, updateNoteStability_snd]
          exact sortNotesDesc_sorted _
        · rw [writeBlockToFifo_detectedNotes]
          exact ih
  | reset hr ih => simp [resetState]
  | prep sr hr ih => simp [prepare, resetState]

/-- C8: every published detected-note collection is sorted by descending
magnitude: in the monophonic variant this holds of getDetectedNotes in every
reachable state, in the multi-peak variant the sort-then-prune pipeline
always emits a descending list, and the pruning step preserves a descending
order. -/
theorem published_sorted_desc :
    (∀ (spectrum : List ℚ → ℕ → ℚ) (findNote : ℚ → Option (String × ℤ))
      (s : PitchState), Reachable spectrum findNote s →
        List.Sorted byMagnitudeDesc (getDetectedNotes s)) ∧
    (∀ l : List DetectedNote,
      List.Sorted byMagnitudeDesc (pruneWeakNotes (sortNotesDesc l))) ∧
    (∀ l : List DetectedNote, List.Sorted byMagnitudeDesc l →
      List.Sorted byMagnitudeDesc (pruneWeakNotes l)) := by
  have hpres : ∀ l : List DetectedNote, List.Sorted byMagnitudeDesc l →
      List.Sorted byMagnitudeDesc (pruneWeakNotes l) := by
    intro l hl
    cases l with
    | nil => simp [pruneWeakNotes]
    | cons strongest t =>
      rw [pruneWeakNotes]
      exact List.Pairwise.filter _ hl
  refine ⟨?_, ?_, hpres⟩
  · intro spectrum findNote s h
    exact reachable_detected_sorted spectrum findNote s h
  · intro l
    exact hpres _ (sortNotesDesc_sorted l)

/-- Witness for C8 at the initial state and the empty list. -/
theorem published_sorted_desc_witness :
    List.Sorted byMagnitudeDesc (getDetectedNotes initialState) ∧
    List.Sorted byMagnitudeDesc (pruneWeakNotes (sortNotesDesc [])) ∧
    List.Sorted byMagnitudeDesc ([] : List DetectedNote) ∧
    List.Sorted byMagnitudeDesc (pruneWeakNotes ([] : List DetectedNote)) :=
  ⟨published_sorted_desc.1 (fun _ _ => 0) (fun _ => none) initialState Reachable.init,
    published_sorted_desc.2.1 [], by simp,
    published_sorted_desc.2.2 [] (by simp)⟩

/-! ## Claim C1: the key estimator returns the first maximal candidate -/

theorem foldl_flatMap_eq {α β γ : Type} (g : γ → β → γ) (h : α → List β) :
    ∀ (l : List α) (a : γ),
      (l.flatMap h).foldl g a = l.foldl (fun b r => (h r).foldl g b) a := by
  intro l
  induction l with
  | nil => intro a; rfl
  | cons x t ih => intro a; rw [List.flatMap_cons, List.foldl_append, ih, List.foldl_cons]

theorem analyzeKey_as_candidates_fold (notes : List String)
    (h : ¬ notes.length = 0) :
    analyzeKey notes
      = (keyCandidates.foldl
          (fun best c =>
            updateBest best (keyScore (pitchClassCounts notes) c) (keyLabel c))
          (-1000, "Unknown")).2 := by
  rw [analyzeKey, if_neg h, keyCandidates, foldl_flatMap_eq]
  rfl

theorem foldBest_spec {α : Type} (score : α → ℤ) (label : α → String) :
    ∀ (cs : List α) (b0 : ℤ) (k0 : String),
      ((∀ c ∈ cs, score c ≤ b0) ∧
        cs.foldl (fun b c => updateBest b (score c) (label c)) (b0, k0) = (b0, k0)) ∨
      (∃ i : ℕ, ∃ hi : i < cs.length,
        (cs.foldl (fun b c => updateBest b (score c) (label c)) (b0, k0)).1
          = score (cs.get ⟨i, hi⟩) ∧
        (cs.foldl (fun b c => updateBest b (score c) (label c)) (b0, k0)).2
          = label (cs.get ⟨i, hi⟩) ∧
        b0 < score (cs.get ⟨i, hi⟩) ∧
        (∀ j : ℕ, ∀ hj : j < cs.length, score (cs.get ⟨j, hj⟩) ≤ score (cs.get ⟨i, hi⟩)) ∧
        (∀ j : ℕ, ∀ hj : j < cs.length, j < i →
          score (cs.get ⟨j, hj⟩) < score (cs.get ⟨i, hi⟩))) := by
  intro cs
  induction cs with
  | nil => intro b0 k0; exact Or.inl ⟨by simp, rfl⟩
  | cons c t ih =>
    intro b0 k0
    by_cases hc : b0 < score c
    · have hstep : updateBest (b0, k0) (score c) (label c) = (score c, label c) := by
        rw [updateBest, if_pos hc]
      rw [List.foldl_cons, hstep]
      rcases ih (score c) (label c) with ⟨hall, heq⟩ | ⟨i', hi', h1, h2, h3, h4, h5⟩
      · refine Or.inr ⟨0, by simp, ?_, ?_, hc, ?_, ?_⟩
        · rw [heq]
          rfl
        · rw [heq]
          rfl
        · intro j hj
          cases j with
          | zero => exact le_refl _
          | succ k =>
            have hk : k < t.length := by simpa using hj
            exact hall (t.get ⟨k, hk⟩) (List.get_mem t k hk)
        · intro j hj hj0; omega
      · refine Or.inr ⟨i' + 1, by simpa using hi', h1, h2, lt_trans hc h3, ?_, ?_⟩
        · intro j hj
          cases j with
          | zero => exact le_of_lt h3
          | succ k => exact h4 k (by simpa using hj)
        · intro j hj hji
          cases j with
          | zero => exact h3
          | succ k => exact h5 k (by simpa using hj) (by omega)
    · have hstep : updateBest (b0, k0) (score c) (label c) = (b0, k0) := by
        rw [updateBest, if_neg hc]
      rw [List.foldl_cons, hstep]
      rcases ih b0 k0 with ⟨hall, heq⟩ | ⟨i', hi', h1, h2, h3, h4, h5⟩
      · refine Or.inl ⟨?_, heq⟩
        intro x hx
        rcases List.mem_cons.mp hx with rfl | hxt
        · exact le_of_not_lt hc
        · exact hall x hxt
      · refine Or.inr ⟨i' + 1, by simpa using hi', h1, h2, h3, ?_, ?_⟩
        · intro j hj
          cases j with
          | zero => exact le_trans (le_of_not_lt hc) (le_of_lt h3)
          | succ k => exact h4 k (by simpa using hj)
        · intro j hj hji
          cases j with
          | zero => exact lt_of_le_of_lt (le_of_not_lt hc) h3
          | succ k => exact h5 k (by simpa using hj) (by omega)

theorem find?_eq_get {α : Type} (p : α → Bool) :
    ∀ (l : List α) (i : ℕ) (hi : i < l.length),
      p (l.get ⟨i, hi⟩) = true →
      (∀ j : ℕ, ∀ hj : j < l.length, j < i → p (l.get ⟨j, hj⟩) = false) →
      l.find? p = some (l.get ⟨i, hi⟩) := by
  intro l
  induction l with
  | nil => intro i hi _ _; simp at hi
  | cons a t ih =>
    intro i hi hp hbefore
    cases i with
    | zero =>
      have ha : p a = true := hp
      rw [List.find?_cons_of_pos _ ha]
      rfl
    | succ k =>
      have ha0 : p a = false := hbefore 0 (by simp) (by omega)
      have ha : ¬ p a = true := by simp [ha0]
      rw [List.find?_cons_of_neg _ ha]
      exact ih k (by simpa using hi) hp
        (fun j hj hjk => hbefore (j + 1) (by simpa using hj) (by omega))

theorem range_twelve : List.range 12 = [0, 1, 2, 3, 4, 5, 6, 7, 8, 9, 10, 11] := rfl

theorem majorScores_sum (counts : List ℕ) :
    scaleScore counts 0 majorScale + scaleScore counts 1 majorScale
      + scaleScore counts 2 majorScale + scaleScore counts 3 majorScale
      + scaleScore counts 4 majorScale + scaleScore counts 5 majorScale
      + scaleScore counts 6 majorScale + scaleScore counts 7 majorScale
      + scaleScore counts 8 majorScale + scaleScore counts 9 majorScale
      + scaleScore counts 10 majorScale + scaleScore counts 11 majorScale
    = 9 * (countAt counts 0 + countAt counts 1 + countAt counts 2
      + countAt counts 3 + countAt counts 4 + countAt counts 5
      + countAt counts 6 + countAt counts 7 + countAt counts 8
      + countAt counts 9 + countAt counts 10 + countAt counts 11) := by
  simp only [scaleScore, majorScale, range_twelve, List.foldl_cons, List.foldl_nil,
    List.any_cons, List.any_nil]
  norm_num
  ring

theorem exists_nonneg_major (counts : List ℕ) :
    ∃ r : ℕ, r < 12 ∧ 0 ≤ scaleScore counts r majorScale := by
  by_contra hcon
  push_neg at hcon
  have h0 := hcon 0 (by norm_num)
  have h1 := hcon 1 (by norm_num)
  have h2 := hcon 2 (by norm_num)
  have h3 := hcon 3 (by norm_num)
  have h4 := hcon 4 (by norm_num)
  have h5 := hcon 5 (by norm_num)
  have h6 := hcon 6 (by norm_num)
  have h7 := hcon 7 (by norm_num)
  have h8 := hcon 8 (by norm_num)
  have h9 := hcon 9 (by norm_num)
  have h10 := hcon 10 (by norm_num)
  have h11 := hcon 11 (by norm_num)
  have hsum := majorScores_sum counts
  have hc0 : 0 ≤ countAt counts 0 := Int.natCast_nonneg _
  have hc1 : 0 ≤ countAt counts 1 := Int.natCast_nonneg _
  have hc2 : 0 ≤ countAt counts 2 := Int.natCast_nonneg _
  have hc3 : 0 ≤ countAt counts 3 := Int.natCast_nonneg _
  have hc4 : 0 ≤ countAt counts 4 := Int.natCast_nonneg _
  have hc5 : 0 ≤ countAt counts 5 := Int.natCast_nonneg _
  have hc6 : 0 ≤ countAt counts 6 := Int.natCast_nonneg _
  have hc7 : 0 ≤ countAt counts 7 := Int.natCast_nonneg _
  have hc8 : 0 ≤ countAt counts 8 := Int.natCast_nonneg _
  have hc9 : 0 ≤ countAt counts 9 := Int.natCast_nonneg _
  have hc10 : 0 ≤ countAt counts 10 := Int.natCast_nonneg _
  have hc11 : 0 ≤ countAt counts 11 := Int.natCast_nonneg _
  linarith

/-- C1: the key estimator's score of every candidate equals the spec formula
(+2 per in-scale histogram count, −1 per out-of-scale count), there are 24
candidates, and for a non-empty sequence analyzeKey returns the label of the
candidate with the maximal score, ties resolving to the earliest candidate
in evaluation order (roots ascending, major before minor per root) — which
is what specBestKey computes. -/
theorem analyzeKey_best_candidate (notes : List String) (hne : notes ≠ []) :
    (∀ c ∈ keyCandidates,
      keyScore (pitchClassCounts notes) c = specKeyScore (pitchClassCounts notes) c) ∧
    keyCandidates.length = 24 ∧
    analyzeKey notes = specBestKey notes := by
  have hlen : ¬ notes.length = 0 := by
    intro h0
    exact hne (List.length_eq_zero.mp h0)
  refine ⟨?_, rfl, ?_⟩
  · intro c hc
    fin_cases hc <;>
      · simp only [keyScore, specKeyScore, scaleScore, majorScale, minorScale,
          range_twelve, List.foldl_cons, List.foldl_nil, List.any_cons, List.any_nil]
        norm_num
        ring
  · set counts := pitchClassCounts notes with hcounts
    rcases foldBest_spec (keyScore counts) keyLabel keyCandidates (-1000) "Unknown"
      with ⟨hall, -⟩ | ⟨i, hi, -, h2, -, h4, h5⟩
    · exfalso
      obtain ⟨r, hr, hscore⟩ := exists_nonneg_major counts
      have hmem : (r, true) ∈ keyCandidates := by
        rw [keyCandidates]
        apply List.mem_flatMap.mpr
        exact ⟨r, List.mem_range.mpr hr, by simp⟩
      have := hall (r, true) hmem
      have hks : keyScore counts (r, true) = scaleScore counts r majorScale := rfl
      rw [hks] at this
      omega
    · have hak := analyzeKey_as_candidates_fold notes hlen
      rw [← hcounts] at hak
      rw [hak, h2]
      have hfind : keyCandidates.find?
          (fun c => keyCandidates.all
            (fun c' => keyScore counts c' ≤ keyScore counts c))
          = some (keyCandidates.get ⟨i, hi⟩) := by
        apply find?_eq_get
        · apply List.all_eq_true.mpr
          intro c' hc'
          obtain ⟨⟨j, hj⟩, hjc⟩ := List.mem_iff_get.mp hc'
          rw [← hjc]
          exact decide_eq_true (h4 j hj)
        · intro j hj hji
          apply Bool.eq_false_iff.mpr
          intro hallj
          have := List.all_eq_true.mp hallj (keyCandidates.get ⟨i, hi⟩)
            (List.get_mem keyCandidates i hi)
          have hle := of_decide_eq_true this
          have hlt := h5 j hj hji
          omega
      have hspec : specBestKey notes = keyLabel (keyCandidates.get ⟨i, hi⟩) := by
        have hunfold : specBestKey notes
            = match keyCandidates.find?
                (fun c => keyCandidates.all
                  (fun c' => keyScore (pitchClassCounts notes) c'
                    ≤ keyScore (pitchClassCounts notes) c)) with
              | some c => keyLabel c
              | none => "Unknown" := rfl
        rw [hunfold, ← hcounts, hfind]
      rw [hspec]

/-- Witness for C1 at a concrete one-note sequence. -/
theorem analyzeKey_best_candidate_witness :
    ((["C"] : List String) ≠ []) ∧
    ((∀ c ∈ keyCandidates,
        keyScore (pitchClassCounts ["C"]) c = specKeyScore (pitchClassCounts ["C"]) c) ∧
      keyCandidates.length = 24 ∧
      analyzeKey ["C"] = specBestKey ["C"]) :=
  ⟨by simp, analyzeKey_best_candidate ["C"] (by simp)⟩

/-! ## Claim C5: the note-frequency range table partitions its band -/

theorem midiNoteToFrequency_pos (m : ℤ) : 0 < midiNoteToFrequency m := by
  rw [midiNoteToFrequency]
  exact mul_pos (by norm_num) (Real.rpow_pos_of_pos (by norm_num) _)

theorem midiNoteToFrequency_strictMono {m m' : ℤ} (h : m < m') :
    midiNoteToFrequency m < midiNoteToFrequency m' := by
  rw [midiNoteToFrequency, midiNoteToFrequency]
  apply mul_lt_mul_of_pos_left _ (by norm_num : (0 : ℝ) < 440)
  apply (Real.rpow_lt_rpow_left_iff (by norm_num : (1 : ℝ) < 2)).mpr
  apply (div_lt_div_iff_of_pos_right (by norm_num : (0 : ℝ) < 12)).mpr
  have : (m : ℝ) < (m' : ℝ) := by exact_mod_cast h
  linarith

theorem midiNoteToFrequency_mono {m m' : ℤ} (h : m ≤ m') :
    midiNoteToFrequency m ≤ midiNoteToFrequency m' := by
  rcases eq_or_lt_of_le h with rfl | hlt
  · exact le_refl _
  · exact le_of_lt (midiNoteToFrequency_strictMono hlt)

theorem noteMin_lt_center (m : ℤ) : noteMinFrequency m < midiNoteToFrequency m := by
  rw [noteMinFrequency]
  have hpos := midiNoteToFrequency_pos m
  have hpos' := midiNoteToFrequency_pos (m - 1)
  have h1 : midiNoteToFrequency (m - 1) * midiNoteToFrequency m
      < midiNoteToFrequency m * midiNoteToFrequency m :=
    mul_lt_mul_of_pos_right (midiNoteToFrequency_strictMono (by omega)) hpos
  calc Real.sqrt (midiNoteToFrequency (m - 1) * midiNoteToFrequency m)
      < Real.sqrt (midiNoteToFrequency m * midiNoteToFrequency m) :=
        Real.sqrt_lt_sqrt (le_of_lt (mul_pos hpos' hpos)) h1
    _ = midiNoteToFrequency m := Real.sqrt_mul_self (le_of_lt hpos)

theorem center_lt_noteMax (m : ℤ) : midiNoteToFrequency m < noteMaxFrequency m := by
  rw [noteMaxFrequency]
  have hpos := midiNoteToFrequency_pos m
  have h1 : midiNoteToFrequency m * midiNoteToFrequency m
      < midiNoteToFrequency m * midiNoteToFrequency (m + 1) :=
    mul_lt_mul_of_pos_left (midiNoteToFrequency_strictMono (by omega)) hpos
  calc midiNoteToFrequency m
      = Real.sqrt (midiNoteToFrequency m * midiNoteToFrequency m) :=
        (Real.sqrt_mul_self (le_of_lt hpos)).symm
    _ < Real.sqrt (midiNoteToFrequency m * midiNoteToFrequency (m + 1)) :=
        Real.sqrt_lt_sqrt (le_of_lt (mul_pos hpos hpos)) h1

theorem noteMin_strictMono {m m' : ℤ} (h : m < m') :
    noteMinFrequency m < noteMinFrequency m' := by
  rw [noteMinFrequency, noteMinFrequency]
  apply Real.sqrt_lt_sqrt
    (le_of_lt (mul_pos (midiNoteToFrequency_pos _) (midiNoteToFrequency_pos _)))
  exact mul_lt_mul'' (midiNoteToFrequency_strictMono (by omega))
    (midiNoteToFrequency_strictMono h)
    (le_of_lt (midiNoteToFrequency_pos _)) (le_of_lt (midiNoteToFrequency_pos _))

theorem noteMin_mono {m m' : ℤ} (h : m ≤ m') :
    noteMinFrequency m ≤ noteMinFrequency m' := by
  rcases eq_or_lt_of_le h with rfl | hlt
  · exact le_refl _
  · exact le_of_lt (noteMin_strictMono hlt)

theorem noteMax_eq_noteMin_succ (m : ℤ) :
    noteMaxFrequency m = noteMinFrequency (m + 1) := by
  rw [noteMaxFrequency, noteMinFrequency, add_sub_cancel_right]

theorem exists_boundary (P : ℤ → Prop) :
    ∀ (n : ℕ) (a : ℤ), P a → ¬ P (a + n + 1) →
      ∃ m : ℤ, a ≤ m ∧ m ≤ a + n ∧ P m ∧ ¬ P (m + 1) := by
  intro n
  induction n with
  | zero =>
    intro a hp hnp
    refine ⟨a, le_refl a, by omega, hp, ?_⟩
    intro hx
    apply hnp
    have heq : a + ((0 : ℕ) : ℤ) + 1 = a + 1 := by omega
    rw [heq]
    exact hx
  | succ n ih =>
    intro a hp hnp
    by_cases hmid : P (a + n + 1)
    · refine ⟨a + n + 1, by omega, by omega, hmid, ?_⟩
      intro hx
      apply hnp
      have heq : a + ((n + 1 : ℕ) : ℤ) + 1 = a + (n : ℤ) + 1 + 1 := by push_cast; ring
      rw [heq]
      exact hx
    · obtain ⟨m, h1, h2, h3, h4⟩ := ih a hp hmid
      exact ⟨m, h1, by omega, h3, h4⟩

theorem makeRange_min (m : ℤ) : (makeRange m).minFrequency = noteMinFrequency m := rfl

theorem makeRange_max (m : ℤ) : (makeRange m).maxFrequency = noteMaxFrequency m := rfl

theorem makeRange_mem_frequencyMap {m : ℤ} (h1 : 24 ≤ m) (h2 : m ≤ 96) :
    makeRange m ∈ frequencyMap := by
  have hidx : (m - 24).toNat < 73 := by omega
  have heq : makeRange m = makeRange (24 + ((m - 24).toNat : ℤ)) := by
    congr 1
    omega
  rw [frequencyMap, heq]
  exact List.mem_map_of_mem (fun i : ℕ => makeRange (24 + (i : ℤ)))
    (List.mem_range.mpr hidx)

theorem findNoteInRanges_mem (x : ℝ) :
    ∀ l : List NoteFrequencyRange,
      (∃ r ∈ l, r.minFrequency ≤ x ∧ x < r.maxFrequency) →
      ∃ r, findNoteInRanges x l = some r ∧ r ∈ l ∧
        r.minFrequency ≤ x ∧ x < r.maxFrequency := by
  intro l
  induction l with
  | nil => rintro ⟨r, hr, -⟩; cases hr
  | cons a t ih =>
    rintro ⟨r, hr, hcond⟩
    by_cases hc : a.minFrequency ≤ x ∧ x < a.maxFrequency
    · exact ⟨a, by rw [findNoteInRanges, if_pos hc], List.mem_cons_self _ _, hc⟩
    · rcases List.mem_cons.mp hr with rfl | hrt
      · exact absurd hcond hc
      · obtain ⟨r', heq, hmem, hcond'⟩ := ih ⟨r, hrt, hcond⟩
        exact ⟨r', by rw [findNoteInRanges, if_neg hc]; exact heq,
          List.mem_cons.mpr (Or.inr hmem), hcond'⟩

/-- C5: adjacent range-table boundaries coincide (the upper boundary of each
note is by construction the geometric mean that is also the lower boundary
of the next note), the half-open ranges [min, max) of MIDI 24..96 are
pairwise disjoint, every frequency in the covered band lies in one of them,
and findNoteForFrequency succeeds on every such frequency. -/
theorem frequencyMap_partition :
    (∀ m : ℤ, 24 ≤ m → m < 96 →
      noteMaxFrequency m = noteMinFrequency (m + 1)) ∧
    (∀ (x : ℝ) (m m' : ℤ), 24 ≤ m → m ≤ 96 → 24 ≤ m' → m' ≤ 96 →
      noteMinFrequency m ≤ x → x < noteMaxFrequency m →
      noteMinFrequency m' ≤ x → x < noteMaxFrequency m' → m = m') ∧
    (∀ x : ℝ, noteMinFrequency 24 ≤ x → x < noteMaxFrequency 96 →
      ∃ m : ℤ, 24 ≤ m ∧ m ≤ 96 ∧ noteMinFrequency m ≤ x ∧ x < noteMaxFrequency m) ∧
    (∀ x : ℝ, noteMinFrequency 24 ≤ x → x < noteMaxFrequency 96 →
      ∃ r, findNoteForFrequency x = some r ∧
        r.minFrequency ≤ x ∧ x < r.maxFrequency) := by
  have hcover : ∀ x : ℝ, noteMinFrequency 24 ≤ x → x < noteMaxFrequency 96 →
      ∃ m : ℤ, 24 ≤ m ∧ m ≤ 96 ∧ noteMinFrequency m ≤ x ∧ x < noteMaxFrequency m := by
    intro x hlo hhi
    have hnp : ¬ noteMinFrequency ((24 : ℤ) + (72 : ℕ) + 1) ≤ x := by
      have heq : ((24 : ℤ) + (72 : ℕ) + 1) = 97 := by norm_num
      rw [heq]
      rw [show (97 : ℤ) = 96 + 1 from by norm_num, ← noteMax_eq_noteMin_succ]
      exact not_le.mpr hhi
    obtain ⟨m, h1, h2, h3, h4⟩ :=
      exists_boundary (fun m => noteMinFrequency m ≤ x) 72 24 hlo hnp
    refine ⟨m, h1, by omega, h3, ?_⟩
    rw [noteMax_eq_noteMin_succ]
    exact lt_of_not_le h4
  refine ⟨?_, ?_, hcover, ?_⟩
  · intro m _ _
    exact noteMax_eq_noteMin_succ m
  · intro x m m' _ _ _ _ ha hb hc hd
    by_contra hne
    rcases lt_or_gt_of_ne hne with hlt | hgt
    · rw [noteMax_eq_noteMin_succ] at hb
      have := noteMin_mono (show m + 1 ≤ m' from by omega)
      linarith
    · rw [noteMax_eq_noteMin_succ] at hd
      have := noteMin_mono (show m' + 1 ≤ m from by omega)
      linarith
  · intro x hlo hhi
    obtain ⟨m, h1, h2, h3, h4⟩ := hcover x hlo hhi
    obtain ⟨r, hres, hmem, hcond⟩ := findNoteInRanges_mem x frequencyMap
      ⟨makeRange m, makeRange_mem_frequencyMap h1 h2,
        by rw [makeRange_min]; exact h3, by rw [makeRange_max]; exact h4⟩
    exact ⟨r, by rw [findNoteForFrequency]; exact hres, hcond⟩

/-- Witness for C5: boundary identity at MIDI 30, and the concert-pitch
frequency of MIDI 69 classified uniquely. -/
theorem frequencyMap_partition_witness :
    ((24 : ℤ) ≤ 30 ∧ (30 : ℤ) < 96 ∧
      noteMaxFrequency 30 = noteMinFrequency (30 + 1)) ∧
    (noteMinFrequency 24 ≤ midiNoteToFrequency 69 ∧
      midiNoteToFrequency 69 < noteMaxFrequency 96 ∧
      ∃ m : ℤ, 24 ≤ m ∧ m ≤ 96 ∧ noteMinFrequency m ≤ midiNoteToFrequency 69 ∧
        midiNoteToFrequency 69 < noteMaxFrequency m) ∧
    (∃ r, findNoteForFrequency (midiNoteToFrequency 69) = some r ∧
      r.minFrequency ≤ midiNoteToFrequency 69 ∧
      midiNoteToFrequency 69 < r.maxFrequency) := by
  have hlo : noteMinFrequency 24 ≤ midiNoteToFrequency 69 :=
    le_trans (le_of_lt (noteMin_lt_center 24)) (midiNoteToFrequency_mono (by omega))
  have hhi : midiNoteToFrequency 69 < noteMaxFrequency 96 :=
    lt_of_le_of_lt (midiNoteToFrequency_mono (by omega)) (center_lt_noteMax 96)
  refine ⟨⟨by norm_num, by norm_num,
      (frequencyMap_partition.1 30 (by norm_num) (by norm_num))⟩,
    ⟨hlo, hhi, frequencyMap_partition.2.2.1 (midiNoteToFrequency 69) hlo hhi⟩,
    frequencyMap_partition.2.2.2 (midiNoteToFrequency 69) hlo hhi⟩

/-! ## Claim C7: FIFO indices versus the backing-buffer size -/

theorem sumOfSquares_replicate_one (n : ℕ) :
    sumOfSquares (List.replicate n (1 : ℚ)) = n := by
  have h : ∀ (k : ℕ) (a : ℚ),
      (List.replicate k (1 : ℚ)).foldl (fun acc sample => acc + sample * sample) a
        = a + k := by
    intro k
    induction k with
    | zero => intro a; simp
    | succ j ih =>
      intro a
      rw [List.replicate_succ, List.foldl_cons, ih]
      push_cast
      ring
  rw [sumOfSquares, h n 0]
  simp

set_option maxRecDepth 10000 in
theorem calculateRMS_ones : calculateRMS (List.replicate 2048 (1 : ℚ)) = 1 := by
  rw [calculateRMS, if_neg (by simp), sumOfSquares_replicate_one]
  norm_num

set_option maxRecDepth 40000 in
set_option maxHeartbeats 1000000 in
/-- C7 (refuted; the code has a buffer overflow): the AbstractFifo is created
with fftSize + 1 = 2049 ring positions while the backing buffer holds only
fftSize = 2048 samples; after one full write/read cycle the bookkeeping hands
out start index 2048, one past the end of the backing buffer. Concretely,
processing two 2048-sample all-ones blocks from the initial state makes the
second call access index 2048 of the 2048-element buffer. -/
theorem fifo_access_out_of_bounds :
    initialState.fifoBuffer.length = 2048 ∧
    2048 ∈ blockAccessedIndices
      (processAudioBlock (fun _ _ => 0) (fun _ => none) initialState
        (List.replicate 2048 (1 : ℚ)))
      (List.replicate 2048 (1 : ℚ)) := by
  have hlen0 : ¬ (List.replicate 2048 (1 : ℚ)).length = 0 := by simp
  have hgate : ¬ calculateRMS (List.replicate 2048 (1 : ℚ))
      < ((initialState.noiseGateThreshold : ℚ) : ℝ) := by
    rw [calculateRMS_ones]
    norm_num [initialState]
  have hfifo1 : (writeBlockToFifo initialState (List.replicate 2048 (1 : ℚ))).fifo
      = ⟨2049, 0, 2048⟩ := by
    rw [writeBlockToFifo_fifo]
    simp only [List.length_replicate]
    decide
  have hready : fftSize ≤ AbstractFifo.getNumReady
      (writeBlockToFifo initialState (List.replicate 2048 (1 : ℚ))).fifo := by
    rw [hfifo1]
    decide
  have hs1 : processAudioBlock (fun _ _ => 0) (fun _ => none) initialState
        (List.replicate 2048 (1 : ℚ))
      = performFFTAnalysis (fun _ _ => 0) (fun _ => none)
          (writeBlockToFifo initialState (List.replicate 2048 (1 : ℚ))) := by
    rw [processAudioBlock, if_neg hlen0, if_neg hgate, if_pos hready]
  have hs1fifo : (processAudioBlock (fun _ _ => 0) (fun _ => none) initialState
        (List.replicate 2048 (1 : ℚ))).fifo = ⟨2049, 2048, 2048⟩ := by
    rw [hs1, performFFTAnalysis_fifo, hfifo1]
    decide
  have hs1gate : (processAudioBlock (fun _ _ => 0) (fun _ => none) initialState
        (List.replicate 2048 (1 : ℚ))).noiseGateThreshold = 1 / 1000 := by
    rw [hs1, performFFTAnalysis_noiseGateThreshold, writeBlockToFifo_noiseGateThreshold]
    rfl
  have hgate1 : ¬ calculateRMS (List.replicate 2048 (1 : ℚ))
      < (((processAudioBlock (fun _ _ => 0) (fun _ => none) initialState
            (List.replicate 2048 (1 : ℚ))).noiseGateThreshold : ℚ) : ℝ) := by
    rw [hs1gate, calculateRMS_ones]
    norm_num
  constructor
  · simp [initialState, fftSize, fftOrder]
  · rw [blockAccessedIndices, if_neg hlen0, if_neg hgate1, writeBlockToFifo_fifo,
      hs1fifo]
    simp only [List.length_replicate]
    decide

end MonolithMaestro
